import Mathlib

/-!
Shallow embedding of the two CPU-scheduling simulators of this repository:
`rr.c` (Round Robin with a fixed time quantum) and `sjf.c` (preemptive
SJF, i.e. SRTF).  C `int` values are modelled as `Int` with exact
arithmetic; the literal sentinel constants of the source (`INT_MAX` in
`sjf.c`, `-1` for "no pick" / IDLE) are kept as the literal values the
source uses.  Timeline segment lists are kept most-recent-first; the
printed timeline is the reverse of the stored list.
-/

namespace CpuSched

/-- The `Process` record of sjf.c (lines 25-33).  The derived
`waiting`/`turnaround` fields of the C struct are modelled as the derived
functions `turnaroundOf`/`waitingOf` below, computed with the same
formulas as sjf.c lines 152-153. -/
structure Process where
  pid : Int
  arrival : Int
  burst : Int
  remaining : Int
  completion : Int
deriving Repr, DecidableEq

/-- The `Segment` record of rr.c lines 32-36 / sjf.c lines 35-39.
`stop` models the C field `end` (a Lean keyword); `pid = -1` means IDLE. -/
structure Segment where
  pid : Int
  start : Int
  stop : Int
deriving Repr, DecidableEq

/-- The value of `INT_MAX` from `<limits.h>` on the 32-bit `int` used by
the source. -/
def INT_MAX : Int := 2147483647

/-- `add_segment` of rr.c lines 39-59 and sjf.c lines 42-62 (the two
copies are identical).  The segment list is most-recent-first, so the
C array cell `segs[count-1]` is the head. -/
def add_segment (segs : List Segment) (pid start stop : Int) : List Segment :=
  if start = stop then segs
  else
    match segs with
    | prev :: rest =>
      if prev.pid = pid ∧ prev.stop = start then ⟨prev.pid, prev.start, stop⟩ :: rest
      else ⟨pid, start, stop⟩ :: prev :: rest
    | [] => [⟨pid, start, stop⟩]

/-- `all_done` of sjf.c lines 64-69: true iff no process has
`remaining > 0`. -/
def all_done (ps : List Process) : Bool :=
  ps.all fun p => decide (p.remaining ≤ 0)

/-- Eligibility test of the SRTF scan (sjf.c line 110). -/
def elig (t : Int) (p : Process) : Prop := p.arrival ≤ t ∧ 0 < p.remaining

instance (t : Int) (p : Process) : Decidable (elig t p) := by
  unfold elig; infer_instance

/-- The selection scan of sjf.c lines 106-122, one step per indexed
process.  The accumulator `pick` is the current `pick` index paired with
its record (`none` models the C sentinel `pick == -1`) and `best` is
`best_rem` (initially `INT_MAX`).  Note the faithful quirk: in the tie
branch the C guard `pick != -1` keeps `pick` unset when the first
eligible record has `remaining == INT_MAX`. -/
def srtfScan (t : Int) : List (Nat × Process) → Option (Nat × Process) → Int →
    Option (Nat × Process)
  | [], pick, _ => pick
  | (i, p) :: rest, pick, best =>
    if elig t p then
      if p.remaining < best then srtfScan t rest (some (i, p)) p.remaining
      else if p.remaining = best then
        match pick with
        | some (j, q) =>
          if p.arrival < q.arrival ∨ (p.arrival = q.arrival ∧ p.pid < q.pid) then
            srtfScan t rest (some (i, p)) best
          else srtfScan t rest (some (j, q)) best
        | none => srtfScan t rest none best
      else srtfScan t rest pick best
    else srtfScan t rest pick best

/-- The full pick of sjf.c lines 106-122 over the whole table. -/
def srtfPick (ps : List Process) (t : Int) : Option (Nat × Process) :=
  srtfScan t ps.enum none INT_MAX

/-- The idle-branch scan of sjf.c lines 126-131: earliest arrival among
unfinished processes with `arrival > t`, sentinel `INT_MAX`. -/
def sjfNextArr (ps : List Process) (t : Int) : Int :=
  ps.foldl
    (fun na p =>
      if 0 < p.remaining ∧ t < p.arrival ∧ p.arrival < na then p.arrival else na)
    INT_MAX

/-- One unit of execution of the picked process (sjf.c lines 140-146):
decrement `remaining`; if it reaches 0 stamp `completion` with the
incremented clock. -/
def runPicked (p : Process) (t : Int) : Process :=
  let p' := { p with remaining := p.remaining - 1 }
  if p'.remaining = 0 then { p' with completion := t + 1 } else p'

/-- State of the sjf.c main loop: the table, the clock `t`, and the
segment list (most recent first). -/
structure SjfState where
  procs : List Process
  t : Int
  segs : List Segment
deriving Repr, DecidableEq

/-- One iteration of the `while (!all_done...)` loop of sjf.c lines
104-147.  `none` means the loop exits: either its condition fails or the
`next_arr == INT_MAX` safety `break` of line 132 fires. -/
def sjfStep (s : SjfState) : Option SjfState :=
  if all_done s.procs then none
  else
    match srtfPick s.procs s.t with
    | some (i, p) =>
      some { procs := s.procs.set i (runPicked p s.t),
             t := s.t + 1,
             segs := add_segment s.segs p.pid s.t (s.t + 1) }
    | none =>
      let na := sjfNextArr s.procs s.t
      if na = INT_MAX then none
      else some { procs := s.procs, t := na, segs := add_segment s.segs (-1) s.t na }

/-- Fuelled iteration of the sjf.c main loop. -/
def sjfRun : Nat → SjfState → SjfState
  | 0, s => s
  | f + 1, s =>
    match sjfStep s with
    | none => s
    | some s' => sjfRun f s'

/-- A process record as the input loop of sjf.c lines 84-98 (and rr.c
lines 142-157) builds it: `remaining := burst`, `completion := -1`. -/
def initProc (pid arrival burst : Int) : Process :=
  { pid := pid, arrival := arrival, burst := burst, remaining := burst, completion := -1 }

/-- Initial state of the sjf.c main loop (line 103): clock 0, no
segments. -/
def sjfInit (ps : List Process) : SjfState :=
  { procs := ps, t := 0, segs := [] }

/-- `turnaround = completion - arrival`, sjf.c line 152 / rr.c line 224. -/
def turnaroundOf (p : Process) : Int := p.completion - p.arrival

/-- `waiting = turnaround - burst`, sjf.c line 153 / rr.c line 225. -/
def waitingOf (p : Process) : Int := turnaroundOf p - p.burst

/-- Sum of waiting times (the accumulation of sjf.c line 154). -/
def sumWaiting (ps : List Process) : Int := (ps.map waitingOf).sum

/-- Sum of turnaround times (the accumulation of sjf.c line 155). -/
def sumTurnaround (ps : List Process) : Int := (ps.map turnaroundOf).sum

/-- Average waiting time as the exact rational the C `double` division
approximates (sjf.c line 157). -/
def avgWaiting (ps : List Process) : ℚ := (sumWaiting ps : ℚ) / (ps.length : ℚ)

/-- Average turnaround time (sjf.c line 158). -/
def avgTurnaround (ps : List Process) : ℚ := (sumTurnaround ps : ℚ) / (ps.length : ℚ)

/-- The `Process` record of rr.c (lines 21-30), which additionally
carries the `enqueued` flag.  Its derived `waiting`/`turnaround` fields
are again modelled as functions (rr.c lines 224-225 use the same
formulas). -/
structure RProcess where
  pid : Int
  arrival : Int
  burst : Int
  remaining : Int
  completion : Int
  enqueued : Bool
deriving Repr, DecidableEq

/-- `all_done` of rr.c lines 61-66. -/
def all_doneR (ps : List RProcess) : Bool :=
  ps.all fun p => decide (p.remaining ≤ 0)

/-- Lookup helpers over the table, `0`-defaulting out of range (the C
code never indexes out of range). -/
def remAt (ps : List RProcess) (i : Nat) : Int :=
  match ps[i]? with
  | some p => p.remaining
  | none => 0

def pidAt (ps : List RProcess) (i : Nat) : Int :=
  match ps[i]? with
  | some p => p.pid
  | none => 0

/-- `p[idx].remaining--` at index `i` (rr.c line 205). -/
def decAt (ps : List RProcess) (i : Nat) : List RProcess :=
  match ps[i]? with
  | some p => ps.set i { p with remaining := p.remaining - 1 }
  | none => ps

/-- `p[idx].completion = t` at index `i` (rr.c line 214). -/
def setCompletionAt (ps : List RProcess) (i : Nat) (t : Int) : List RProcess :=
  match ps[i]? with
  | some p => ps.set i { p with completion := t }
  | none => ps

/-- `enqueue_arrivals` of rr.c lines 114-121, recursing over the table
with the running index `i`; the queue is a FIFO list of indices (head =
front of the circular queue of rr.c, push = append at the tail). -/
def enqAux (t : Int) (i : Nat) : List RProcess → List Nat → List RProcess × List Nat
  | [], q => ([], q)
  | p :: rest, q =>
    if ¬ p.enqueued ∧ p.arrival ≤ t then
      let r := enqAux t (i + 1) rest (q ++ [i])
      ({ p with enqueued := true } :: r.1, r.2)
    else
      let r := enqAux t (i + 1) rest q
      (p :: r.1, r.2)

def enqueue_arrivals (ps : List RProcess) (q : List Nat) (t : Int) :
    List RProcess × List Nat :=
  enqAux t 0 ps q

/-- The idle-branch scan of rr.c lines 182-187: earliest arrival among
unfinished, not-yet-enqueued processes, sentinel `-1`. -/
def rrNextArr (ps : List RProcess) : Int :=
  ps.foldl
    (fun na p =>
      if 0 < p.remaining ∧ ¬ p.enqueued ∧ (na = -1 ∨ p.arrival < na) then p.arrival
      else na)
    (-1)

/-- The per-unit slice loop of rr.c lines 202-209 for the running index
`i`, with fuel `slice`: each unit increments `t`, decrements `remaining`,
enqueues new arrivals, and breaks early when `remaining` hits 0. -/
def runSlice (i : Nat) : Nat → Int → List RProcess → List Nat →
    Int × List RProcess × List Nat
  | 0, t, ps, q => (t, ps, q)
  | k + 1, t, ps, q =>
    let t' := t + 1
    let ps₁ := decAt ps i
    let eq' := enqueue_arrivals ps₁ q t'
    if remAt eq'.1 i = 0 then (t', eq'.1, eq'.2)
    else runSlice i k t' eq'.1 eq'.2

/-- State of the rr.c main loop: table, ready queue (FIFO list of
indices, head first), clock, segment list (most recent first). -/
structure RrState where
  procs : List RProcess
  q : List Nat
  t : Int
  segs : List Segment
deriving Repr, DecidableEq

/-- One iteration of the `while (!all_done...)` loop of rr.c lines
179-219.  `none` means the loop exits: its condition fails or the
`next_arr == -1` safety `break` of line 188 fires. -/
def rrStep (quantum : Int) (s : RrState) : Option RrState :=
  if all_doneR s.procs then none
  else
    match s.q with
    | [] =>
      let na := rrNextArr s.procs
      if na = -1 then none
      else
        let segs' := if s.t < na then add_segment s.segs (-1) s.t na else s.segs
        let eq' := enqueue_arrivals s.procs [] na
        some { procs := eq'.1, q := eq'.2, t := na, segs := segs' }
    | i :: rest =>
      if remAt s.procs i ≤ 0 then some { s with q := rest }
      else
        let slice := min (remAt s.procs i) quantum
        let r := runSlice i slice.toNat s.t s.procs rest
        let segs' := add_segment s.segs (pidAt s.procs i) s.t r.1
        if remAt r.2.1 i = 0 then
          some { procs := setCompletionAt r.2.1 i r.1, q := r.2.2, t := r.1,
                 segs := segs' }
        else
          some { procs := r.2.1, q := r.2.2 ++ [i], t := r.1, segs := segs' }

/-- Fuelled iteration of the rr.c main loop. -/
def rrRun (quantum : Int) : Nat → RrState → RrState
  | 0, s => s
  | f + 1, s =>
    match rrStep quantum s with
    | none => s
    | some s' => rrRun quantum f s'

/-- A record as the rr.c input loop builds it (lines 142-157):
`remaining := burst`, `completion := -1`, `enqueued := 0`. -/
def initRProc (pid arrival burst : Int) : RProcess :=
  { pid := pid, arrival := arrival, burst := burst, remaining := burst,
    completion := -1, enqueued := false }

/-- `earliest` of rr.c lines 168-171, seeded with `p[0].arrival` (the
empty-table case is unreachable: validation enforces `n > 0`). -/
def earliestArrival (ps : List RProcess) : Int :=
  match ps with
  | [] => 0
  | p :: rest => rest.foldl (fun e q => if q.arrival < e then q.arrival else e) p.arrival

/-- The pre-loop setup of rr.c lines 165-177: leading IDLE segment when
no process arrives at time 0, then the initial `enqueue_arrivals`. -/
def rrInit (ps : List RProcess) : RrState :=
  let e := earliestArrival ps
  let t0 := if 0 < e then e else 0
  let segs0 := if 0 < e then add_segment [] (-1) 0 e else []
  let eq' := enqueue_arrivals ps [] t0
  { procs := eq'.1, q := eq'.2, t := t0, segs := segs0 }

/-- `turnaround = completion - arrival`, rr.c line 224. -/
def turnaroundOfR (p : RProcess) : Int := p.completion - p.arrival

/-- `waiting = turnaround - burst`, rr.c line 225. -/
def waitingOfR (p : RProcess) : Int := turnaroundOfR p - p.burst

def sumWaitingR (ps : List RProcess) : Int := (ps.map waitingOfR).sum

def sumTurnaroundR (ps : List RProcess) : Int := (ps.map turnaroundOfR).sum

def avgWaitingR (ps : List RProcess) : ℚ := (sumWaitingR ps : ℚ) / (ps.length : ℚ)

def avgTurnaroundR (ps : List RProcess) : ℚ := (sumTurnaroundR ps : ℚ) / (ps.length : ℚ)

/-! Input parsing.  `scanf("%d", ...)` reads are modelled by consuming a
list of integer tokens; a missing token models both end-of-input and a
malformed (non-numeric) token, since after either failure the C program
aborts immediately. -/

/-- The input loop of sjf.c lines 84-98: read `n` triples, aborting on a
short read (`scanf != 3`) or on `arrival < 0 || burst <= 0`. -/
def readProcs : Nat → List Int → Except Unit (List Process × List Int)
  | 0, input => .ok ([], input)
  | k + 1, pid :: a :: b :: rest =>
    if a < 0 ∨ b ≤ 0 then .error ()
    else
      match readProcs k rest with
      | .ok (ps, r) => .ok (initProc pid a b :: ps, r)
      | .error e => .error e
  | _ + 1, _ => .error ()

/-- The input loop of rr.c lines 142-157 (identical checks, `RProcess`
records). -/
def readRProcs : Nat → List Int → Except Unit (List RProcess × List Int)
  | 0, input => .ok ([], input)
  | k + 1, pid :: a :: b :: rest =>
    if a < 0 ∨ b ≤ 0 then .error ()
    else
      match readRProcs k rest with
      | .ok (ps, r) => .ok (initRProc pid a b :: ps, r)
      | .error e => .error e
  | _ + 1, _ => .error ()

/-- `main` of sjf.c: validation (lines 74-98), then the simulation loop,
run with the given fuel.  `.error` models `return 1` before any
simulation state is built; `.ok` models the `return 0` path. -/
def sjfMain (fuel : Nat) (input : List Int) : Except Unit SjfState :=
  match input with
  | [] => .error ()
  | n :: rest =>
    if n ≤ 0 then .error ()
    else
      match readProcs n.toNat rest with
      | .error _ => .error ()
      | .ok (ps, _) => .ok (sjfRun fuel (sjfInit ps))

/-- `main` of rr.c: validation of `n`, the quantum and the process lines
(lines 126-157), then setup and the simulation loop. -/
def rrMain (fuel : Nat) (input : List Int) : Except Unit RrState :=
  match input with
  | [] => .error ()
  | n :: rest =>
    if n ≤ 0 then .error ()
    else
      match rest with
      | [] => .error ()
      | qu :: rest2 =>
        if qu ≤ 0 then .error ()
        else
          match readRProcs n.toNat rest2 with
          | .error _ => .error ()
          | .ok (ps, _) => .ok (rrRun qu fuel (rrInit ps))

/-- Flatten `PID ARRIVAL BURST` triples into the token stream they
occupy. -/
def flatTriples : List (Int × Int × Int) → List Int
  | [] => []
  | (p, a, b) :: r => p :: a :: b :: flatTriples r

/-- The per-line validation condition of both programs. -/
def goodTriples (ts : List (Int × Int × Int)) : Prop :=
  ∀ u ∈ ts, 0 ≤ u.2.1 ∧ 0 < u.2.2

/-- Declarative description of the token streams sjf.c accepts. -/
def sjfValidInput (input : List Int) : Prop :=
  ∃ (n : Int) (ts : List (Int × Int × Int)) (rest : List Int),
    input = n :: (flatTriples ts ++ rest) ∧ 0 < n ∧ ts.length = n.toNat ∧
      goodTriples ts

/-- Declarative description of the token streams rr.c accepts. -/
def rrValidInput (input : List Int) : Prop :=
  ∃ (n qu : Int) (ts : List (Int × Int × Int)) (rest : List Int),
    input = n :: qu :: (flatTriples ts ++ rest) ∧ 0 < n ∧ 0 < qu ∧
      ts.length = n.toNat ∧ goodTriples ts

/-- A table as built from validated input: non-empty, `arrival ≥ 0`,
`burst > 0`, `remaining = burst`, `completion = -1`. -/
def validTable (ps : List Process) : Prop :=
  ps ≠ [] ∧ ∀ p ∈ ps,
    0 ≤ p.arrival ∧ 0 < p.burst ∧ p.remaining = p.burst ∧ p.completion = -1

/-- The rr.c counterpart (`enqueued` starts false). -/
def validTableR (ps : List RProcess) : Prop :=
  ps ≠ [] ∧ ∀ p ∈ ps,
    0 ≤ p.arrival ∧ 0 < p.burst ∧ p.remaining = p.burst ∧ p.completion = -1 ∧
      p.enqueued = false

/-- Arrivals and bursts strictly below the `INT_MAX` sentinel of sjf.c. -/
def boundedTable (ps : List Process) : Prop :=
  ∀ p ∈ ps, p.arrival < INT_MAX ∧ p.burst < INT_MAX

/-- No pid collides with the IDLE sentinel `-1`. -/
def noIdlePid (ps : List Process) : Prop := ∀ p ∈ ps, p.pid ≠ -1

def noIdlePidR (ps : List RProcess) : Prop := ∀ p ∈ ps, p.pid ≠ -1

instance (ps : List Process) : Decidable (validTable ps) := by
  unfold validTable; infer_instance

instance (ps : List RProcess) : Decidable (validTableR ps) := by
  unfold validTableR; infer_instance

instance (ps : List Process) : Decidable (boundedTable ps) := by
  unfold boundedTable; infer_instance

instance (ps : List Process) : Decidable (noIdlePid ps) := by
  unfold noIdlePid; infer_instance

instance (ps : List RProcess) : Decidable (noIdlePidR ps) := by
  unfold noIdlePidR; infer_instance

instance (ts : List (Int × Int × Int)) : Decidable (goodTriples ts) := by
  unfold goodTriples; infer_instance

/-! Derived quantities and structural predicates used by the stated
properties. -/

def sumRemaining (ps : List Process) : Int := (ps.map Process.remaining).sum

def sumBurst (ps : List Process) : Int := (ps.map Process.burst).sum

def sumRemainingR (ps : List RProcess) : Int := (ps.map RProcess.remaining).sum

def sumBurstR (ps : List RProcess) : Int := (ps.map RProcess.burst).sum

/-- Total duration of the non-IDLE segments. -/
def sumNonIdle (segs : List Segment) : Int :=
  (segs.map fun s => if s.pid = -1 then 0 else s.stop - s.start).sum

def maxCompletion (ps : List Process) : Int :=
  ps.foldl (fun m p => max m p.completion) 0

def maxCompletionR (ps : List RProcess) : Int :=
  ps.foldl (fun m p => max m p.completion) 0

/-- `chain a L b`: the segments of `L`, in list order, exactly partition
the interval `[a, b)` (each segment non-empty, starting where the
previous one stopped). -/
def chain : Int → List Segment → Int → Prop
  | a, [], b => a = b
  | a, s :: r, b => s.start = a ∧ a < s.stop ∧ chain s.stop r b

instance chainDec : ∀ (a : Int) (L : List Segment) (b : Int), Decidable (chain a L b)
  | a, [], b => by unfold chain; infer_instance
  | a, s :: r, b => by
    unfold chain
    have h := chainDec s.stop r b
    infer_instance

/-- `rchain a L b`: the reverse of `L` partitions `[a, b)`; this is the
form the invariant takes on the stored most-recent-first segment list. -/
def rchain : Int → List Segment → Int → Prop
  | a, [], b => a = b
  | a, s :: r, b => s.stop = b ∧ s.start < b ∧ rchain a r s.start

instance rchainDec : ∀ (a : Int) (L : List Segment) (b : Int), Decidable (rchain a L b)
  | a, [], b => by unfold rchain; infer_instance
  | a, s :: r, b => by
    unfold rchain
    have h := rchainDec a r s.start
    infer_instance

/-- No two adjacent segments share an owner. -/
def adjDistinct : List Segment → Prop
  | [] => True
  | [_] => True
  | a :: b :: r => a.pid ≠ b.pid ∧ adjDistinct (b :: r)

instance adjDistinctDec : ∀ (L : List Segment), Decidable (adjDistinct L)
  | [] => by unfold adjDistinct; infer_instance
  | [_] => by unfold adjDistinct; infer_instance
  | _ :: b :: r => by
    unfold adjDistinct
    have h := adjDistinctDec (b :: r)
    infer_instance

/-- Lexicographic order on `(remaining, arrival, pid)` — the SRTF
selection key: smaller `remaining`, ties by smaller `arrival`, then by
smaller `pid`. -/
def keyLE (p q : Process) : Prop :=
  p.remaining < q.remaining ∨
    (p.remaining = q.remaining ∧
      (p.arrival < q.arrival ∨ (p.arrival = q.arrival ∧ p.pid ≤ q.pid)))

/-- Number of unfinished processes that have not yet arrived at `t`
(part of the termination measure). -/
def futureCount (ps : List Process) (t : Int) : Nat :=
  ps.countP fun p => decide (0 < p.remaining ∧ t < p.arrival)

/-- Termination measure for the sjf.c loop. -/
def sjfMeasure (s : SjfState) : Nat :=
  (sumRemaining s.procs).toNat + futureCount s.procs s.t

def notEnqCount (ps : List RProcess) : Nat :=
  ps.countP fun p => decide (p.enqueued = false)

/-- Termination measure for the rr.c loop. -/
def rrMeasure (s : RrState) : Nat :=
  3 * (sumRemainingR s.procs).toNat + 2 * notEnqCount s.procs + s.q.length

/-- Scenario A of the spec (Round Robin, quantum 2). -/
def scenarioA : List RProcess := [initRProc 1 0 4, initRProc 2 1 3, initRProc 3 3 2]

/-- Scenario B of the spec (SRTF). -/
def scenarioB : List Process :=
  [initProc 1 0 8, initProc 2 1 4, initProc 3 2 9, initProc 4 3 5]

/-- Per-record simulation invariant at clock `t`: remaining time stays
within `[0, burst]`, execution only happens after arrival, and
`completion` is the `-1` sentinel until `remaining` hits 0, at which
point it is stamped with a clock value in `[arrival + burst, t]`. -/
def procInv (t : Int) (p : Process) : Prop :=
  0 ≤ p.remaining ∧ p.remaining ≤ p.burst ∧ 0 < p.burst ∧ 0 ≤ p.arrival ∧
    (p.remaining < p.burst → p.arrival + (p.burst - p.remaining) ≤ t) ∧
    ((p.completion = -1 ∧ 0 < p.remaining) ∨
      (p.remaining = 0 ∧ p.arrival + p.burst ≤ p.completion ∧ p.completion ≤ t))

/-- Loop-head invariant of the sjf.c main loop. -/
def sjfInv (s : SjfState) : Prop :=
  0 ≤ s.t ∧ (∀ p ∈ s.procs, procInv s.t p) ∧ rchain 0 s.segs s.t ∧
    adjDistinct s.segs ∧
    (all_done s.procs = true → maxCompletion s.procs = s.t)

/-! Helpers and invariants for the rr.c loop. -/

def arrAt (ps : List RProcess) (i : Nat) : Int :=
  match ps[i]? with
  | some p => p.arrival
  | none => 0

def burstAt (ps : List RProcess) (i : Nat) : Int :=
  match ps[i]? with
  | some p => p.burst
  | none => 0

def compAt (ps : List RProcess) (i : Nat) : Int :=
  match ps[i]? with
  | some p => p.completion
  | none => 0

def enqAt (ps : List RProcess) (i : Nat) : Bool :=
  match ps[i]? with
  | some p => p.enqueued
  | none => false

/-- Pointwise effect of `enqueue_arrivals` on one record. -/
def markArrived (t : Int) (p : RProcess) : RProcess :=
  if ¬ p.enqueued ∧ p.arrival ≤ t then { p with enqueued := true } else p

/-- The indices `enqueue_arrivals` pushes, in push order, starting at
absolute index `i`. -/
def newIdx (t : Int) (i : Nat) : List RProcess → List Nat
  | [] => []
  | p :: rest =>
    if ¬ p.enqueued ∧ p.arrival ≤ t then i :: newIdx t (i + 1) rest
    else newIdx t (i + 1) rest

/-- Per-record simulation invariant for rr.c, mirroring `procInv`. -/
def rprocInv (t : Int) (p : RProcess) : Prop :=
  0 ≤ p.remaining ∧ p.remaining ≤ p.burst ∧ 0 < p.burst ∧ 0 ≤ p.arrival ∧
    (p.remaining < p.burst → p.arrival + (p.burst - p.remaining) ≤ t) ∧
    ((p.completion = -1 ∧ 0 < p.remaining) ∨
      (p.remaining = 0 ∧ p.arrival + p.burst ≤ p.completion ∧ p.completion ≤ t))

/-- Loop-head invariant of the rr.c main loop. -/
def rrInv (s : RrState) : Prop :=
  0 ≤ s.t ∧ s.q.Nodup ∧
    (∀ i ∈ s.q, i < s.procs.length) ∧
    (∀ i ∈ s.q, 0 < remAt s.procs i ∧ enqAt s.procs i = true) ∧
    (∀ p ∈ s.procs, p.enqueued = true ↔ p.arrival ≤ s.t) ∧
    (∀ p ∈ s.procs, p.enqueued = false → p.remaining = p.burst) ∧
    (∀ i < s.procs.length, enqAt s.procs i = true → i ∉ s.q → remAt s.procs i = 0) ∧
    (∀ p ∈ s.procs, rprocInv s.t p) ∧
    rchain 0 s.segs s.t ∧ adjDistinct s.segs ∧
    (all_doneR s.procs = true → maxCompletionR s.procs = s.t)

/-! Theorems.  First, general lemmas about the SRTF selection scan. -/

theorem keyLE_refl (p : Process) : keyLE p p := by
  unfold keyLE; omega

theorem keyLE_trans {a b c : Process} (h1 : keyLE a b) (h2 : keyLE b c) : keyLE a c := by
  unfold keyLE at *; omega

/-- A result of the scan is either an element of the scanned list or the
incoming accumulator. -/
theorem srtfScan_mem {t : Int} :
    ∀ (l : List (Nat × Process)) (pick : Option (Nat × Process)) (best : Int)
      (jq : Nat × Process), srtfScan t l pick best = some jq → jq ∈ l ∨ pick = some jq := by
  intro l
  induction l with
  | nil =>
    intro pick best jq h
    right
    simpa [srtfScan] using h
  | cons hd tl ih =>
    intro pick best jq h
    obtain ⟨i, p⟩ := hd
    by_cases he : elig t p
    · by_cases hlt : p.remaining < best
      · simp only [srtfScan, if_pos he, if_pos hlt] at h
        rcases ih _ _ _ h with h' | h'
        · exact Or.inl (List.mem_cons_of_mem _ h')
        · exact Or.inl (by simp_all)
      · by_cases heq : p.remaining = best
        · rcases pick with _ | ⟨j, q⟩
          · simp only [srtfScan, if_pos he, if_neg hlt, if_pos heq] at h
            rcases ih _ _ _ h with h' | h'
            · exact Or.inl (List.mem_cons_of_mem _ h')
            · exact absurd h' (by simp)
          · by_cases hlex : p.arrival < q.arrival ∨ (p.arrival = q.arrival ∧ p.pid < q.pid)
            · simp only [srtfScan, if_pos he, if_neg hlt, if_pos heq, if_pos hlex] at h
              rcases ih _ _ _ h with h' | h'
              · exact Or.inl (List.mem_cons_of_mem _ h')
              · exact Or.inl (by simp_all)
            · simp only [srtfScan, if_pos he, if_neg hlt, if_pos heq, if_neg hlex] at h
              rcases ih _ _ _ h with h' | h'
              · exact Or.inl (List.mem_cons_of_mem _ h')
              · exact Or.inr h'
        · simp only [srtfScan, if_pos he, if_neg hlt, if_neg heq] at h
          rcases ih _ _ _ h with h' | h'
          · exact Or.inl (List.mem_cons_of_mem _ h')
          · exact Or.inr h'
    · simp only [srtfScan, if_neg he] at h
      rcases ih _ _ _ h with h' | h'
      · exact Or.inl (List.mem_cons_of_mem _ h')
      · exact Or.inr h'

/-- Any result of the scan is eligible and its remaining time is at
most the incoming `best` (given the accumulator is consistent). -/
theorem srtfScan_elig {t : Int} :
    ∀ (l : List (Nat × Process)) (pick : Option (Nat × Process)) (best : Int)
      (jq : Nat × Process),
      (∀ x, pick = some x → elig t x.2 ∧ x.2.remaining = best) →
      srtfScan t l pick best = some jq →
      elig t jq.2 ∧ jq.2.remaining ≤ best := by
  intro l
  induction l with
  | nil =>
    intro pick best jq hp h
    simp only [srtfScan] at h
    obtain ⟨h1, h2⟩ := hp _ h
    exact ⟨h1, le_of_eq h2⟩
  | cons hd tl ih =>
    intro pick best jq hp h
    obtain ⟨i, p⟩ := hd
    by_cases he : elig t p
    · by_cases hlt : p.remaining < best
      · simp only [srtfScan, if_pos he, if_pos hlt] at h
        have := ih _ _ _ (by rintro x h; rw [Option.some.injEq] at h; subst h; exact ⟨he, rfl⟩) h
        exact ⟨this.1, le_trans this.2 (le_of_lt hlt)⟩
      · by_cases heq : p.remaining = best
        · rcases pick with _ | ⟨j, q⟩
          · simp only [srtfScan, if_pos he, if_neg hlt, if_pos heq] at h
            exact ih _ _ _ (by rintro x ⟨⟩) h
          · by_cases hlex : p.arrival < q.arrival ∨ (p.arrival = q.arrival ∧ p.pid < q.pid)
            · simp only [srtfScan, if_pos he, if_neg hlt, if_pos heq, if_pos hlex] at h
              exact ih _ _ _ (by rintro x h; rw [Option.some.injEq] at h; subst h; exact ⟨he, heq⟩) h
            · simp only [srtfScan, if_pos he, if_neg hlt, if_pos heq, if_neg hlex] at h
              exact ih _ _ _ (by rintro x h; rw [Option.some.injEq] at h; subst h; exact hp _ rfl) h
        · simp only [srtfScan, if_pos he, if_neg hlt, if_neg heq] at h
          exact ih _ _ _ hp h
    · simp only [srtfScan, if_neg he] at h
      exact ih _ _ _ hp h

/-- Starting from an unset accumulator, the scan can only return a
record with remaining time strictly below `best` — the C quirk behind
the `INT_MAX` boundary. -/
theorem srtfScan_lt_of_none {t : Int} :
    ∀ (l : List (Nat × Process)) (best : Int) (jq : Nat × Process),
      srtfScan t l none best = some jq → jq.2.remaining < best := by
  intro l
  induction l with
  | nil => intro best jq h; simp [srtfScan] at h
  | cons hd tl ih =>
    intro best jq h
    obtain ⟨i, p⟩ := hd
    by_cases he : elig t p
    · by_cases hlt : p.remaining < best
      · simp only [srtfScan, if_pos he, if_pos hlt] at h
        have := srtfScan_elig _ _ _ _ (by rintro x h; rw [Option.some.injEq] at h; subst h; exact ⟨he, rfl⟩) h
        exact lt_of_le_of_lt this.2 hlt
      · by_cases heq : p.remaining = best
        · simp only [srtfScan, if_pos he, if_neg hlt, if_pos heq] at h
          exact ih _ _ h
        · simp only [srtfScan, if_pos he, if_neg hlt, if_neg heq] at h
          exact ih _ _ h
    · simp only [srtfScan, if_neg he] at h
      exact ih _ _ h

/-- A set accumulator is never dropped: the scan returns something. -/
theorem srtfScan_ne_none_of_some {t : Int} :
    ∀ (l : List (Nat × Process)) (jq : Nat × Process) (best : Int),
      srtfScan t l (some jq) best ≠ none := by
  intro l
  induction l with
  | nil => intro jq best; simp [srtfScan]
  | cons hd tl ih =>
    intro jq best
    obtain ⟨i, p⟩ := hd
    by_cases he : elig t p
    · by_cases hlt : p.remaining < best
      · simpa only [srtfScan, if_pos he, if_pos hlt] using ih _ _
      · by_cases heq : p.remaining = best
        · by_cases hlex : p.arrival < jq.2.arrival ∨
            (p.arrival = jq.2.arrival ∧ p.pid < jq.2.pid)
          · simpa only [srtfScan, if_pos he, if_neg hlt, if_pos heq, if_pos hlex] using ih _ _
          · simpa only [srtfScan, if_pos he, if_neg hlt, if_pos heq, if_neg hlex] using ih _ _
        · simpa only [srtfScan, if_pos he, if_neg hlt, if_neg heq] using ih _ _
    · simpa only [srtfScan, if_neg he] using ih _ _

/-- If the list holds an eligible record with remaining time below
`best`, the scan returns something. -/
theorem srtfScan_ne_none {t : Int} :
    ∀ (l : List (Nat × Process)) (pick : Option (Nat × Process)) (best : Int),
      (∃ kx ∈ l, elig t kx.2 ∧ kx.2.remaining < best) →
      srtfScan t l pick best ≠ none := by
  intro l
  induction l with
  | nil => rintro pick best ⟨kx, hkx, -⟩; simp at hkx
  | cons hd tl ih =>
    rintro pick best ⟨kx, hkx, hel, hrem⟩
    obtain ⟨i, p⟩ := hd
    rcases List.mem_cons.mp hkx with rfl | hkx'
    · simp only [srtfScan, if_pos hel, if_pos hrem]
      exact srtfScan_ne_none_of_some _ _ _
    · by_cases he : elig t p
      · by_cases hlt : p.remaining < best
        · simp only [srtfScan, if_pos he, if_pos hlt]
          exact srtfScan_ne_none_of_some _ _ _
        · by_cases heq : p.remaining = best
          · rcases pick with _ | jq
            · simp only [srtfScan, if_pos he, if_neg hlt, if_pos heq]
              exact ih _ _ ⟨kx, hkx', hel, hrem⟩
            · by_cases hlex : p.arrival < jq.2.arrival ∨
                (p.arrival = jq.2.arrival ∧ p.pid < jq.2.pid)
              · simp only [srtfScan, if_pos he, if_neg hlt, if_pos heq]
                obtain ⟨j, q⟩ := jq
                simp only [if_pos hlex]
                exact srtfScan_ne_none_of_some _ _ _
              · simp only [srtfScan, if_pos he, if_neg hlt, if_pos heq]
                obtain ⟨j, q⟩ := jq
                simp only [if_neg hlex]
                exact srtfScan_ne_none_of_some _ _ _
          · simp only [srtfScan, if_pos he, if_neg hlt, if_neg heq]
            exact ih _ _ ⟨kx, hkx', hel, hrem⟩
      · simp only [srtfScan, if_neg he]
        exact ih _ _ ⟨kx, hkx', hel, hrem⟩

/-- The result improves on (or equals) a set accumulator in the
selection key order. -/
theorem srtfScan_keyLE_pick {t : Int} :
    ∀ (l : List (Nat × Process)) (j0q0 : Nat × Process) (best : Int)
      (jq : Nat × Process),
      j0q0.2.remaining = best →
      srtfScan t l (some j0q0) best = some jq →
      keyLE jq.2 j0q0.2 := by
  intro l
  induction l with
  | nil =>
    intro j0q0 best jq hb h
    simp only [srtfScan, Option.some.injEq] at h
    subst h
    exact keyLE_refl _
  | cons hd tl ih =>
    intro j0q0 best jq hb h
    obtain ⟨i, p⟩ := hd
    by_cases he : elig t p
    · by_cases hlt : p.remaining < best
      · simp only [srtfScan, if_pos he, if_pos hlt] at h
        have h1 := ih (i, p) p.remaining jq rfl h
        have h2 : keyLE p j0q0.2 := Or.inl (hb ▸ hlt)
        exact keyLE_trans h1 h2
      · by_cases heq : p.remaining = best
        · by_cases hlex : p.arrival < j0q0.2.arrival ∨
            (p.arrival = j0q0.2.arrival ∧ p.pid < j0q0.2.pid)
          · obtain ⟨j0, q0⟩ := j0q0
            simp only [srtfScan, if_pos he, if_neg hlt, if_pos heq, if_pos hlex] at h
            have h1 := ih (i, p) best jq heq h
            have h2 : keyLE p q0 := by
              simp only at hlex hb
              unfold keyLE
              omega
            exact keyLE_trans h1 h2
          · obtain ⟨j0, q0⟩ := j0q0
            simp only [srtfScan, if_pos he, if_neg hlt, if_pos heq, if_neg hlex] at h
            exact ih (j0, q0) best jq hb h
        · simp only [srtfScan, if_pos he, if_neg hlt, if_neg heq] at h
          exact ih _ _ _ hb h
    · simp only [srtfScan, if_neg he] at h
      exact ih _ _ _ hb h

/-- Minimality over the scanned list: the result's key is at most the
key of every eligible element. -/
theorem srtfScan_min {t : Int} :
    ∀ (l : List (Nat × Process)) (pick : Option (Nat × Process)) (best : Int),
      (∀ x, pick = some x → x.2.remaining = best) →
      ∀ kx ∈ l, elig t kx.2 →
        ∀ jq, srtfScan t l pick best = some jq → keyLE jq.2 kx.2 := by
  intro l
  induction l with
  | nil => intro pick best hp kx hkx; simp at hkx
  | cons hd tl ih =>
    intro pick best hp kx hkx hel jq h
    obtain ⟨i, p⟩ := hd
    rcases List.mem_cons.mp hkx with rfl | hkx'
    · -- the element in question is the head
      by_cases hlt : p.remaining < best
      · simp only [srtfScan, if_pos hel, if_pos hlt] at h
        exact srtfScan_keyLE_pick _ _ _ _ rfl h
      · by_cases heq : p.remaining = best
        · rcases pick with _ | ⟨j, q⟩
          · simp only [srtfScan, if_pos hel, if_neg hlt, if_pos heq] at h
            have := srtfScan_lt_of_none _ _ _ h
            exact Or.inl (heq ▸ this)
          · by_cases hlex : p.arrival < q.arrival ∨ (p.arrival = q.arrival ∧ p.pid < q.pid)
            · simp only [srtfScan, if_pos hel, if_neg hlt, if_pos heq, if_pos hlex] at h
              exact srtfScan_keyLE_pick _ _ _ _ heq h
            · simp only [srtfScan, if_pos hel, if_neg hlt, if_pos heq, if_neg hlex] at h
              have h1 := srtfScan_keyLE_pick _ _ _ _ (hp _ rfl) h
              have h2 : keyLE q p := by
                have hqb := hp (j, q) rfl
                unfold keyLE
                simp only at hqb
                omega
              exact keyLE_trans h1 h2
        · -- p.remaining > best
          have hgt : best < p.remaining := by omega
          simp only [srtfScan, if_pos hel, if_neg hlt, if_neg heq] at h
          rcases pick with _ | ⟨j, q⟩
          · have := srtfScan_lt_of_none _ _ _ h
            exact Or.inl (show jq.2.remaining < p.remaining by omega)
          · have h1 := srtfScan_keyLE_pick _ _ _ _ (hp _ rfl) h
            have h2 : keyLE q p := Or.inl (by have := hp (j, q) rfl; simp only at this; omega)
            exact keyLE_trans h1 h2
    · -- the element in question is in the tail
      by_cases he : elig t p
      · by_cases hlt : p.remaining < best
        · simp only [srtfScan, if_pos he, if_pos hlt] at h
          exact ih _ _ (by rintro x h; rw [Option.some.injEq] at h; subst h; rfl) kx hkx' hel jq h
        · by_cases heq : p.remaining = best
          · rcases pick with _ | ⟨j, q⟩
            · simp only [srtfScan, if_pos he, if_neg hlt, if_pos heq] at h
              exact ih _ _ (by rintro x ⟨⟩) kx hkx' hel jq h
            · by_cases hlex : p.arrival < q.arrival ∨ (p.arrival = q.arrival ∧ p.pid < q.pid)
              · simp only [srtfScan, if_pos he, if_neg hlt, if_pos heq, if_pos hlex] at h
                exact ih _ _ (by rintro x h; rw [Option.some.injEq] at h; subst h; exact heq) kx hkx' hel jq h
              · simp only [srtfScan, if_pos he, if_neg hlt, if_pos heq, if_neg hlex] at h
                exact ih _ _ (by rintro x h; rw [Option.some.injEq] at h; subst h; exact hp _ rfl) kx hkx' hel jq h
          · simp only [srtfScan, if_pos he, if_neg hlt, if_neg heq] at h
            exact ih _ _ hp kx hkx' hel jq h
      · simp only [srtfScan, if_neg he] at h
        exact ih _ _ hp kx hkx' hel jq h

/-- Facts about a successful pick: it indexes the table, is eligible,
and its remaining time is below the `INT_MAX` sentinel. -/
theorem srtfPick_elig {ps : List Process} {t : Int} {i : Nat} {p : Process}
    (h : srtfPick ps t = some (i, p)) :
    ps[i]? = some p ∧ elig t p ∧ p.remaining < INT_MAX := by
  have hmem := srtfScan_mem _ _ _ _ h
  simp only [or_false, reduceCtorEq] at hmem
  have hget : ps[i]? = some p := by
    have := List.mk_mem_enum_iff_getElem?.mp hmem
    simpa using this
  have hel := srtfScan_elig _ _ _ _ (by rintro x ⟨⟩) h
  have hlt := srtfScan_lt_of_none _ _ _ h
  exact ⟨hget, hel.1, hlt⟩

/-- Minimality of a successful pick over the whole table. -/
theorem srtfPick_min {ps : List Process} {t : Int} {i : Nat} {p : Process}
    (h : srtfPick ps t = some (i, p)) :
    ∀ q ∈ ps, elig t q → keyLE p q := by
  intro q hq hel
  obtain ⟨k, hk⟩ := List.mem_iff_getElem?.mp hq
  have hmem : (k, q) ∈ ps.enum := List.mk_mem_enum_iff_getElem?.mpr hk
  exact srtfScan_min _ _ _ (by rintro x ⟨⟩) (k, q) hmem hel _ h

/-- The pick succeeds whenever some eligible record has remaining time
below `INT_MAX`. -/
theorem srtfPick_some {ps : List Process} {t : Int}
    (h : ∃ q ∈ ps, elig t q ∧ q.remaining < INT_MAX) :
    srtfPick ps t ≠ none := by
  obtain ⟨q, hq, hel, hlt⟩ := h
  obtain ⟨k, hk⟩ := List.mem_iff_getElem?.mp hq
  exact srtfScan_ne_none _ _ _ ⟨(k, q), List.mk_mem_enum_iff_getElem?.mpr hk, hel, hlt⟩

/-- C3, amended: at every decision point where some arrived, unfinished
process has remaining time below the `INT_MAX` sentinel, the scan
selects a process, and the selected process is minimal in the
lexicographic key (remaining, arrival, pid) among all arrived,
unfinished processes. -/
theorem c3_srtf_pick_minimal (ps : List Process) (t : Int)
    (h : ∃ q ∈ ps, elig t q ∧ q.remaining < INT_MAX) :
    ∃ i p, srtfPick ps t = some (i, p) ∧ ps[i]? = some p ∧ elig t p ∧
      ∀ q ∈ ps, elig t q → keyLE p q := by
  rcases hp : srtfPick ps t with _ | ⟨i, p⟩
  · exact absurd hp (srtfPick_some h)
  · obtain ⟨hget, hel, -⟩ := srtfPick_elig hp
    exact ⟨i, p, rfl, hget, hel, srtfPick_min hp⟩

/-- Witness for `c3_srtf_pick_minimal` at a concrete decision point. -/
theorem c3_srtf_pick_minimal_witness :
    (∃ q ∈ [initProc 1 0 5, initProc 2 0 3], elig 0 q ∧ q.remaining < INT_MAX) ∧
      ∃ i p, srtfPick [initProc 1 0 5, initProc 2 0 3] 0 = some (i, p) ∧
        [initProc 1 0 5, initProc 2 0 3][i]? = some p ∧ elig 0 p ∧
        ∀ q ∈ [initProc 1 0 5, initProc 2 0 3], elig 0 q → keyLE p q :=
  ⟨by decide, c3_srtf_pick_minimal _ 0 (by decide)⟩

/-! General lemmas: accounting, segment chains, fold scans. -/

theorem all_done_iff {ps : List Process} :
    all_done ps = true ↔ ∀ p ∈ ps, p.remaining ≤ 0 := by
  simp [all_done, List.all_eq_true]

theorem map_sum_set {α : Type} (f : α → Int) :
    ∀ (l : List α) (i : Nat) (p x : α), l[i]? = some p →
      ((l.set i x).map f).sum = (l.map f).sum - f p + f x := by
  intro l
  induction l with
  | nil => intro i p x h; simp at h
  | cons hd tl ih =>
    intro i p x h
    cases i with
    | zero =>
      simp only [List.getElem?_cons_zero, Option.some.injEq] at h
      subst h
      simp [List.set]
      ring
    | succ k =>
      simp only [List.getElem?_cons_succ] at h
      simp only [List.set, List.map_cons, List.sum_cons, ih k p x h]
      ring

theorem sumRemaining_set {l : List Process} {i : Nat} {p : Process} (x : Process)
    (h : l[i]? = some p) :
    sumRemaining (l.set i x) = sumRemaining l - p.remaining + x.remaining :=
  map_sum_set Process.remaining l i p x h

theorem sumBurst_set {l : List Process} {i : Nat} {p : Process} (x : Process)
    (h : l[i]? = some p) :
    sumBurst (l.set i x) = sumBurst l - p.burst + x.burst :=
  map_sum_set Process.burst l i p x h

/-- `add_segment` keeps the reverse-chain property when the appended
interval continues the timeline. -/
theorem rchain_add_segment {a t u pid : Int} {segs : List Segment}
    (hc : rchain a segs t) (htu : t < u) :
    rchain a (add_segment segs pid t u) u := by
  unfold add_segment
  rw [if_neg (by omega)]
  match segs, hc with
  | [], hc =>
    have : a = t := hc
    subst this
    exact ⟨rfl, htu, hc⟩
  | prev :: rest, hc =>
    obtain ⟨h1, h2, h3⟩ := hc
    show rchain a
      (if prev.pid = pid ∧ prev.stop = t then ⟨prev.pid, prev.start, u⟩ :: rest
        else ⟨pid, t, u⟩ :: prev :: rest) u
    by_cases hm : prev.pid = pid ∧ prev.stop = t
    · rw [if_pos hm]
      exact ⟨rfl, show prev.start < u by omega, h3⟩
    · rw [if_neg hm]
      exact ⟨rfl, htu, h1, h2, h3⟩

/-- `add_segment` keeps adjacent segments distinct when the appended
interval continues the timeline (the merge branch fires exactly when the
previous owner repeats). -/
theorem adjDistinct_add_segment {a t u pid : Int} {segs : List Segment}
    (hc : rchain a segs t) (hd : adjDistinct segs) :
    adjDistinct (add_segment segs pid t u) := by
  unfold add_segment
  by_cases htu : t = u
  · rw [if_pos htu]; exact hd
  · rw [if_neg htu]
    match segs, hc, hd with
    | [], _, _ => trivial
    | [prev], hc, hd =>
      show adjDistinct
        (if prev.pid = pid ∧ prev.stop = t then [(⟨prev.pid, prev.start, u⟩ : Segment)]
          else [⟨pid, t, u⟩, prev])
      by_cases hm : prev.pid = pid ∧ prev.stop = t
      · rw [if_pos hm]; trivial
      · rw [if_neg hm]
        have hstop : prev.stop = t := hc.1
        exact ⟨fun hpid => hm ⟨hpid.symm, hstop⟩, trivial⟩
    | prev :: b :: rest, hc, hd =>
      show adjDistinct
        (if prev.pid = pid ∧ prev.stop = t then ⟨prev.pid, prev.start, u⟩ :: b :: rest
          else ⟨pid, t, u⟩ :: prev :: b :: rest)
      by_cases hm : prev.pid = pid ∧ prev.stop = t
      · rw [if_pos hm]
        exact ⟨hd.1, hd.2⟩
      · rw [if_neg hm]
        have hstop : prev.stop = t := hc.1
        exact ⟨fun hpid => hm ⟨hpid.symm, hstop⟩, hd⟩

/-- Accounting effect of `add_segment` on non-IDLE time. -/
theorem sumNonIdle_add_segment (segs : List Segment) (pid a b : Int) :
    sumNonIdle (add_segment segs pid a b) =
      sumNonIdle segs + (if pid = -1 then 0 else b - a) := by
  unfold add_segment
  by_cases hab : a = b
  · rw [if_pos hab]
    subst hab
    split <;> simp
  · rw [if_neg hab]
    match segs with
    | [] => simp [sumNonIdle]
    | prev :: rest =>
      show sumNonIdle
          (if prev.pid = pid ∧ prev.stop = a then ⟨prev.pid, prev.start, b⟩ :: rest
            else ⟨pid, a, b⟩ :: prev :: rest) =
        sumNonIdle (prev :: rest) + if pid = -1 then 0 else b - a
      by_cases hm : prev.pid = pid ∧ prev.stop = a
      · rw [if_pos hm]
        obtain ⟨hp1, hp2⟩ := hm
        subst hp1
        simp only [sumNonIdle, List.map_cons, List.sum_cons]
        split <;> [skip; rw [hp2]] <;> ring
      · rw [if_neg hm]
        simp only [sumNonIdle, List.map_cons, List.sum_cons]
        ring

theorem procInv_mono {t u : Int} {p : Process} (h : procInv t p) (htu : t ≤ u) :
    procInv u p := by
  unfold procInv at *
  omega

/-- Bounds for the `max` folds used for the final completion time. -/
theorem foldl_max_le {α : Type} (f : α → Int) {c : Int} :
    ∀ (ps : List α) (init : Int), init ≤ c → (∀ p ∈ ps, f p ≤ c) →
      ps.foldl (fun m p => max m (f p)) init ≤ c := by
  intro ps
  induction ps with
  | nil => intro init h _; simpa using h
  | cons hd tl ih =>
    intro init h hall
    simp only [List.foldl_cons]
    exact ih _ (by
      have := hall hd (by simp)
      omega) (fun p hp => hall p (by simp [hp]))

theorem le_foldl_max {α : Type} (f : α → Int) :
    ∀ (ps : List α) (init : Int) (p : α), p ∈ ps →
      f p ≤ ps.foldl (fun m p => max m (f p)) init := by
  intro ps
  induction ps with
  | nil => intro init p h; simp at h
  | cons hd tl ih =>
    intro init p hp
    rcases List.mem_cons.mp hp with rfl | hp'
    · simp only [List.foldl_cons]
      have : ∀ (l : List α) (a b : Int), a ≤ b →
          a ≤ l.foldl (fun m p => max m (f p)) b := by
        intro l
        induction l with
        | nil => intro a b h; simpa using h
        | cons x xs ihx =>
          intro a b h
          simp only [List.foldl_cons]
          exact ihx a _ (by omega)
      exact this tl _ _ (by omega)
    · simp only [List.foldl_cons]
      exact ih _ p hp'

/-- Characterization of the sjf.c idle scan: either the sentinel, or the
arrival of some unfinished future process, minimal among them. -/
theorem sjfNextArr_spec (ps : List Process) (t : Int) :
    (sjfNextArr ps t = INT_MAX ∨
      ∃ p ∈ ps, 0 < p.remaining ∧ t < p.arrival ∧ p.arrival = sjfNextArr ps t) ∧
      (∀ p ∈ ps, 0 < p.remaining → t < p.arrival → sjfNextArr ps t ≤ p.arrival) ∧
      sjfNextArr ps t ≤ INT_MAX := by
  have key : ∀ (l : List Process) (init : Int),
      (l.foldl (fun na p =>
          if 0 < p.remaining ∧ t < p.arrival ∧ p.arrival < na then p.arrival else na)
        init = init ∨
        ∃ p ∈ l, 0 < p.remaining ∧ t < p.arrival ∧
          p.arrival = l.foldl (fun na p =>
            if 0 < p.remaining ∧ t < p.arrival ∧ p.arrival < na then p.arrival else na)
          init) ∧
      (∀ p ∈ l, 0 < p.remaining → t < p.arrival →
        l.foldl (fun na p =>
          if 0 < p.remaining ∧ t < p.arrival ∧ p.arrival < na then p.arrival else na)
          init ≤ p.arrival) ∧
      l.foldl (fun na p =>
        if 0 < p.remaining ∧ t < p.arrival ∧ p.arrival < na then p.arrival else na)
        init ≤ init := by
    intro l
    induction l with
    | nil => intro init; exact ⟨Or.inl rfl, by simp, le_refl _⟩
    | cons hd tl ih =>
      intro init
      simp only [List.foldl_cons]
      by_cases hc : 0 < hd.remaining ∧ t < hd.arrival ∧ hd.arrival < init
      · rw [if_pos hc]
        obtain ⟨m1, m2, m3⟩ := ih hd.arrival
        refine ⟨?_, ?_, by omega⟩
        · rcases m1 with h | ⟨p, hp, h1, h2, h3⟩
          · exact Or.inr ⟨hd, by simp, hc.1, hc.2.1, h.symm⟩
          · exact Or.inr ⟨p, by simp [hp], h1, h2, h3⟩
        · intro p hp h1 h2
          rcases List.mem_cons.mp hp with rfl | hp'
          · omega
          · exact m2 p hp' h1 h2
      · rw [if_neg hc]
        obtain ⟨m1, m2, m3⟩ := ih init
        refine ⟨?_, ?_, m3⟩
        · rcases m1 with h | ⟨p, hp, h1, h2, h3⟩
          · exact Or.inl h
          · exact Or.inr ⟨p, by simp [hp], h1, h2, h3⟩
        · intro p hp h1 h2
          rcases List.mem_cons.mp hp with rfl | hp'
          · omega
          · exact m2 p hp' h1 h2
  obtain ⟨k1, k2, k3⟩ := key ps INT_MAX
  exact ⟨by
    rcases k1 with h | h
    · exact Or.inl h
    · exact Or.inr h, k2, k3⟩

/-! Invariant preservation for the sjf.c loop. -/

theorem runPicked_remaining (p : Process) (t : Int) :
    (runPicked p t).remaining = p.remaining - 1 := by
  simp only [runPicked]
  split <;> rfl

theorem runPicked_completion (p : Process) (t : Int) :
    (runPicked p t).completion = if p.remaining - 1 = 0 then t + 1 else p.completion := by
  simp only [runPicked]
  split <;> rfl

theorem runPicked_pid (p : Process) (t : Int) : (runPicked p t).pid = p.pid := by
  simp only [runPicked]
  split <;> rfl

theorem runPicked_arrival (p : Process) (t : Int) :
    (runPicked p t).arrival = p.arrival := by
  simp only [runPicked]
  split <;> rfl

theorem runPicked_burst (p : Process) (t : Int) : (runPicked p t).burst = p.burst := by
  simp only [runPicked]
  split <;> rfl

theorem sjfInv_init {ps : List Process} (hv : validTable ps) : sjfInv (sjfInit ps) := by
  obtain ⟨hne, hall⟩ := hv
  unfold sjfInit sjfInv
  dsimp only
  refine ⟨le_refl 0, ?_, rfl, trivial, ?_⟩
  · intro p hp
    obtain ⟨h1, h2, h3, h4⟩ := hall p hp
    unfold procInv
    omega
  · intro hdone
    obtain ⟨q, l, rfl⟩ : ∃ q l, ps = q :: l := by
      cases ps with
      | nil => exact absurd rfl hne
      | cons q l => exact ⟨q, l, rfl⟩
    have hq := hall q (by simp)
    have := all_done_iff.mp hdone q (by simp)
    omega

theorem sjfInv_step {s s' : SjfState} (hInv : sjfInv s) (hstep : sjfStep s = some s') :
    sjfInv s' := by
  obtain ⟨ht, hprocs, hchain, hadj, hdmax⟩ := hInv
  unfold sjfStep at hstep
  by_cases hdone : all_done s.procs
  · rw [if_pos hdone] at hstep; cases hstep
  · rw [if_neg hdone] at hstep
    rcases hp : srtfPick s.procs s.t with _ | ⟨i, p⟩
    · rw [hp] at hstep
      by_cases hna : sjfNextArr s.procs s.t = INT_MAX
      · rw [if_pos hna] at hstep; cases hstep
      · rw [if_neg hna] at hstep
        obtain ⟨w1, -, -⟩ := sjfNextArr_spec s.procs s.t
        rcases w1 with h | ⟨p₀, hp₀, hr₀, ha₀, he₀⟩
        · exact absurd h hna
        · injection hstep with hs
          subst hs
          have htna : s.t < sjfNextArr s.procs s.t := by omega
          unfold sjfInv
          dsimp only
          refine ⟨by omega, ?_, rchain_add_segment hchain htna,
            adjDistinct_add_segment hchain hadj, ?_⟩
          · intro q hq
            exact procInv_mono (hprocs q hq) (by omega)
          · intro hdone'
            exact absurd (all_done_iff.mp hdone' p₀ hp₀) (by omega)
    · rw [hp] at hstep
      simp only [Option.some.injEq] at hstep
      subst hstep
      obtain ⟨hget, hel, -⟩ := srtfPick_elig hp
      have hpmem : p ∈ s.procs := List.mem_iff_getElem?.mpr ⟨i, hget⟩
      have hpI := hprocs p hpmem
      have hilen : i < s.procs.length := by
        have := List.getElem?_eq_some_iff.mp hget
        exact this.1
      unfold sjfInv
      dsimp only
      refine ⟨by omega, ?_, rchain_add_segment hchain (by omega),
        adjDistinct_add_segment hchain hadj, ?_⟩
      · intro q hq
        rcases List.mem_or_eq_of_mem_set hq with hq' | rfl
        · exact procInv_mono (hprocs q hq') (by omega)
        · obtain ⟨i1, i2, i3, i4, i5, i6⟩ := hpI
          obtain ⟨e1, e2⟩ := hel
          unfold runPicked
          by_cases hz : p.remaining - 1 = 0
          · rw [if_pos hz]
            unfold procInv
            simp only
            omega
          · rw [if_neg hz]
            unfold procInv
            simp only
            omega
      · intro hdone'
        -- the step must have finished `p`, and it is the latest completion
        have hmem' : runPicked p s.t ∈ s.procs.set i (runPicked p s.t) := by
          have := List.mem_set s.procs i hilen (runPicked p s.t)
          simpa using this
        have hrp : (runPicked p s.t).remaining = p.remaining - 1 :=
          runPicked_remaining p s.t
        have hfin : p.remaining = 1 := by
          have := all_done_iff.mp hdone' _ hmem'
          rw [hrp] at this
          obtain ⟨e1, e2⟩ := hel
          omega
        have hcomp : (runPicked p s.t).completion = s.t + 1 := by
          rw [runPicked_completion, if_pos (by omega)]
        apply le_antisymm
        · apply foldl_max_le Process.completion
          · omega
          · intro q hq
            rcases List.mem_or_eq_of_mem_set hq with hq' | rfl
            · have := hprocs q hq'
              unfold procInv at this
              omega
            · omega
        · have := le_foldl_max Process.completion (s.procs.set i (runPicked p s.t)) 0
            _ hmem'
          rw [hcomp] at this
          unfold maxCompletion
          omega

theorem sjfInv_run : ∀ (f : Nat) (s : SjfState), sjfInv s → sjfInv (sjfRun f s) := by
  intro f
  induction f with
  | zero => intro s h; exact h
  | succ k ih =>
    intro s h
    rcases hs : sjfStep s with _ | s'
    · simpa [sjfRun, hs] using h
    · have := sjfInv_step h hs
      simpa [sjfRun, hs] using ih s' this

/-! Lemmas about `enqueue_arrivals` and the rr.c scans. -/

theorem enqAux_fst {t : Int} :
    ∀ (ps : List RProcess) (q : List Nat) (i : Nat),
      (enqAux t i ps q).1 = ps.map (markArrived t) := by
  intro ps
  induction ps with
  | nil => intro q i; rfl
  | cons p rest ih =>
    intro q i
    by_cases hc : p.enqueued = false ∧ p.arrival ≤ t <;>
      simp [enqAux, markArrived, hc, ih]

theorem enqAux_snd {t : Int} :
    ∀ (ps : List RProcess) (q : List Nat) (i : Nat),
      (enqAux t i ps q).2 = q ++ newIdx t i ps := by
  intro ps
  induction ps with
  | nil => intro q i; simp [enqAux, newIdx]
  | cons p rest ih =>
    intro q i
    by_cases hc : p.enqueued = false ∧ p.arrival ≤ t <;>
      simp [enqAux, newIdx, hc, ih]

theorem enqueue_arrivals_fst (ps : List RProcess) (q : List Nat) (t : Int) :
    (enqueue_arrivals ps q t).1 = ps.map (markArrived t) :=
  enqAux_fst ps q 0

theorem enqueue_arrivals_snd (ps : List RProcess) (q : List Nat) (t : Int) :
    (enqueue_arrivals ps q t).2 = q ++ newIdx t 0 ps :=
  enqAux_snd ps q 0

theorem markArrived_remaining (t : Int) (p : RProcess) :
    (markArrived t p).remaining = p.remaining := by
  unfold markArrived; split <;> rfl

theorem markArrived_arrival (t : Int) (p : RProcess) :
    (markArrived t p).arrival = p.arrival := by
  unfold markArrived; split <;> rfl

theorem markArrived_burst (t : Int) (p : RProcess) :
    (markArrived t p).burst = p.burst := by
  unfold markArrived; split <;> rfl

theorem markArrived_pid (t : Int) (p : RProcess) :
    (markArrived t p).pid = p.pid := by
  unfold markArrived; split <;> rfl

theorem markArrived_completion (t : Int) (p : RProcess) :
    (markArrived t p).completion = p.completion := by
  unfold markArrived; split <;> rfl

theorem markArrived_enqueued (t : Int) (p : RProcess) :
    (markArrived t p).enqueued = true ↔ (p.enqueued = true ∨ p.arrival ≤ t) := by
  unfold markArrived
  split
  next hc => simp only [true_iff]; right; exact hc.2
  next hc =>
    constructor
    · intro h; exact Or.inl h
    · intro h
      rcases h with h | h
      · exact h
      · by_cases he : p.enqueued
        · exact he
        · exact absurd ⟨by simpa using he, h⟩ hc

theorem newIdx_ge {t : Int} :
    ∀ (ps : List RProcess) (i j : Nat), j ∈ newIdx t i ps →
      i ≤ j ∧ j - i < ps.length := by
  intro ps
  induction ps with
  | nil => intro i j h; simp [newIdx] at h
  | cons p rest ih =>
    intro i j h
    unfold newIdx at h
    by_cases hc : ¬ p.enqueued ∧ p.arrival ≤ t
    · rw [if_pos hc] at h
      rcases List.mem_cons.mp h with rfl | h'
      · simp
      · have := ih (i + 1) j h'
        simp only [List.length_cons]
        omega
    · rw [if_neg hc] at h
      have := ih (i + 1) j h
      simp only [List.length_cons]
      omega

theorem newIdx_get {t : Int} :
    ∀ (ps : List RProcess) (i j : Nat), j ∈ newIdx t i ps →
      ∃ p, ps[j - i]? = some p ∧ p.enqueued = false ∧ p.arrival ≤ t := by
  intro ps
  induction ps with
  | nil => intro i j h; simp [newIdx] at h
  | cons p rest ih =>
    intro i j h
    unfold newIdx at h
    by_cases hc : ¬ p.enqueued ∧ p.arrival ≤ t
    · rw [if_pos hc] at h
      rcases List.mem_cons.mp h with rfl | h'
      · exact ⟨p, by simp, by simpa using hc.1, hc.2⟩
      · obtain ⟨x, hx1, hx2, hx3⟩ := ih (i + 1) j h'
        have hij : i + 1 ≤ j := (newIdx_ge rest (i + 1) j h').1
        refine ⟨x, ?_, hx2, hx3⟩
        have : j - i = (j - (i + 1)) + 1 := by omega
        rw [this]
        simpa using hx1
    · rw [if_neg hc] at h
      obtain ⟨x, hx1, hx2, hx3⟩ := ih (i + 1) j h
      have hij : i + 1 ≤ j := (newIdx_ge rest (i + 1) j h).1
      refine ⟨x, ?_, hx2, hx3⟩
      have : j - i = (j - (i + 1)) + 1 := by omega
      rw [this]
      simpa using hx1

theorem newIdx_complete {t : Int} :
    ∀ (ps : List RProcess) (i j : Nat) (p : RProcess), ps[j]? = some p →
      p.enqueued = false → p.arrival ≤ t → (i + j) ∈ newIdx t i ps := by
  intro ps
  induction ps with
  | nil => intro i j p h; simp at h
  | cons hd rest ih =>
    intro i j p h he ha
    cases j with
    | zero =>
      simp only [List.getElem?_cons_zero, Option.some.injEq] at h
      subst h
      unfold newIdx
      rw [if_pos ⟨by simp [he], ha⟩]
      simp
    | succ k =>
      simp only [List.getElem?_cons_succ] at h
      have := ih (i + 1) k p h he ha
      unfold newIdx
      by_cases hc : ¬ hd.enqueued ∧ hd.arrival ≤ t
      · rw [if_pos hc]
        refine List.mem_cons_of_mem _ ?_
        have heq : i + 1 + k = i + (k + 1) := by omega
        rwa [heq] at this
      · rw [if_neg hc]
        have heq : i + 1 + k = i + (k + 1) := by omega
        rwa [heq] at this

theorem newIdx_nodup {t : Int} :
    ∀ (ps : List RProcess) (i : Nat), (newIdx t i ps).Nodup := by
  intro ps
  induction ps with
  | nil => intro i; simp [newIdx]
  | cons p rest ih =>
    intro i
    unfold newIdx
    by_cases hc : ¬ p.enqueued ∧ p.arrival ≤ t
    · rw [if_pos hc]
      refine List.nodup_cons.mpr ⟨?_, ih (i + 1)⟩
      intro hmem
      have := (newIdx_ge rest (i + 1) i hmem).1
      omega
    · rw [if_neg hc]
      exact ih (i + 1)

theorem notEnqCount_cons (p : RProcess) (ps : List RProcess) :
    notEnqCount (p :: ps) = (if p.enqueued = false then 1 else 0) + notEnqCount ps := by
  cases hpe : p.enqueued <;> simp [notEnqCount, List.countP_cons, hpe, Nat.add_comm]

theorem newIdx_count {t : Int} :
    ∀ (ps : List RProcess) (i : Nat),
      notEnqCount (ps.map (markArrived t)) + (newIdx t i ps).length = notEnqCount ps := by
  intro ps
  induction ps with
  | nil => intro i; simp [notEnqCount, newIdx]
  | cons p rest ih =>
    intro i
    have ih' := ih (i + 1)
    unfold newIdx
    by_cases hc : ¬ p.enqueued ∧ p.arrival ≤ t
    · rw [if_pos hc]
      have hm : (markArrived t p).enqueued = true := by
        unfold markArrived
        rw [if_pos hc]
      have hp' : p.enqueued = false := by simpa using hc.1
      rw [List.map_cons, notEnqCount_cons, notEnqCount_cons, hm, hp',
        List.length_cons, if_neg (by decide : ¬(true = false)), if_pos rfl]
      omega
    · rw [if_neg hc]
      have hm : (markArrived t p).enqueued = p.enqueued := by
        unfold markArrived
        rw [if_neg hc]
      rw [List.map_cons, notEnqCount_cons, notEnqCount_cons, hm]
      split <;> omega

theorem remAt_map_mark (ps : List RProcess) (t : Int) (j : Nat) :
    remAt (ps.map (markArrived t)) j = remAt ps j := by
  unfold remAt
  rw [List.getElem?_map]
  cases ps[j]? with
  | none => rfl
  | some p => simp [markArrived_remaining]

theorem pidAt_map_mark (ps : List RProcess) (t : Int) (j : Nat) :
    pidAt (ps.map (markArrived t)) j = pidAt ps j := by
  unfold pidAt
  rw [List.getElem?_map]
  cases ps[j]? with
  | none => rfl
  | some p => simp [markArrived_pid]

theorem enqAt_map_mark (ps : List RProcess) (t : Int) (j : Nat) :
    enqAt (ps.map (markArrived t)) j = true ↔
      (enqAt ps j = true ∨ (j < ps.length ∧ arrAt ps j ≤ t)) := by
  unfold enqAt arrAt
  rw [List.getElem?_map]
  cases hj : ps[j]? with
  | none =>
    have : ¬ j < ps.length := by
      intro hlt
      rw [List.getElem?_eq_getElem hlt] at hj
      cases hj
    simp [this]
  | some p =>
    have hjlen : j < ps.length := (List.getElem?_eq_some_iff.mp hj).1
    show (markArrived t p).enqueued = true ↔ _
    rw [markArrived_enqueued]
    constructor
    · rintro (h | h)
      · exact Or.inl h
      · exact Or.inr ⟨hjlen, h⟩
    · rintro (h | ⟨-, h⟩)
      · exact Or.inl h
      · exact Or.inr h

/-- Characterization of the rr.c idle scan (generalized fold facts).
Given all arrivals are nonnegative and some unfinished, unenqueued
record exists, the scan yields the minimal arrival among such records
(in particular not the `-1` sentinel). -/
theorem rrNextArr_spec (ps : List RProcess)
    (harr : ∀ p ∈ ps, 0 ≤ p.arrival)
    (hcand : ∃ p ∈ ps, 0 < p.remaining ∧ p.enqueued = false) :
    0 ≤ rrNextArr ps ∧
      (∃ p ∈ ps, 0 < p.remaining ∧ p.enqueued = false ∧ p.arrival = rrNextArr ps) ∧
      (∀ p ∈ ps, 0 < p.remaining → p.enqueued = false → rrNextArr ps ≤ p.arrival) := by
  have cond : ∀ (na : Int) (p : RProcess),
      (0 < p.remaining ∧ ¬ p.enqueued ∧ (na = -1 ∨ p.arrival < na)) ∨
        ¬ (0 < p.remaining ∧ ¬ p.enqueued ∧ (na = -1 ∨ p.arrival < na)) := fun na p =>
    Classical.em _
  -- the fold function of rrNextArr
  let φ : Int → RProcess → Int := fun na p =>
    if 0 < p.remaining ∧ ¬ p.enqueued ∧ (na = -1 ∨ p.arrival < na) then p.arrival else na
  have aux1 : ∀ (l : List RProcess) (init : Int), 0 ≤ init → (∀ p ∈ l, 0 ≤ p.arrival) →
      0 ≤ l.foldl φ init ∧ l.foldl φ init ≤ init := by
    intro l
    induction l with
    | nil => intro init h _; exact ⟨h, le_refl _⟩
    | cons hd tl ih =>
      intro init h hall
      simp only [List.foldl_cons]
      by_cases hc : 0 < hd.remaining ∧ ¬ hd.enqueued ∧ (init = -1 ∨ hd.arrival < init)
      · have heq : φ init hd = hd.arrival := if_pos hc
        rw [heq]
        have hha : 0 ≤ hd.arrival := hall hd (by simp)
        obtain ⟨a1, a2⟩ := ih hd.arrival hha (fun p hp => hall p (by simp [hp]))
        exact ⟨a1, by omega⟩
      · have heq : φ init hd = init := if_neg hc
        rw [heq]
        exact ih init h (fun p hp => hall p (by simp [hp]))
  have aux2 : ∀ (l : List RProcess) (init : Int), (∀ p ∈ l, 0 ≤ p.arrival) →
      (0 ≤ init ∨ init = -1) →
      ∀ p ∈ l, 0 < p.remaining → p.enqueued = false → l.foldl φ init ≤ p.arrival := by
    intro l
    induction l with
    | nil => intro init _ _ p hp; simp at hp
    | cons hd tl ih =>
      intro init hall hinit p hp h1 h2
      simp only [List.foldl_cons]
      rcases List.mem_cons.mp hp with rfl | hp'
      · by_cases hc : 0 < p.remaining ∧ ¬ p.enqueued ∧ (init = -1 ∨ p.arrival < init)
        · have heq : φ init p = p.arrival := if_pos hc
          rw [heq]
          exact (aux1 tl p.arrival (hall p (by simp))
            (fun x hx => hall x (by simp [hx]))).2
        · have hne : ¬ p.enqueued := by simp [h2]
          have hinit' : 0 ≤ init := by
            rcases hinit with h | h
            · exact h
            · exact absurd ⟨h1, hne, Or.inl h⟩ hc
          have hge : init ≤ p.arrival := by
            by_cases harr' : p.arrival < init
            · exact absurd ⟨h1, hne, Or.inr harr'⟩ hc
            · omega
          have heq : φ init p = init := if_neg hc
          rw [heq]
          have := (aux1 tl init hinit' (fun x hx => hall x (by simp [hx]))).2
          omega
      · by_cases hc : 0 < hd.remaining ∧ ¬ hd.enqueued ∧ (init = -1 ∨ hd.arrival < init)
        · have heq : φ init hd = hd.arrival := if_pos hc
          rw [heq]
          exact ih hd.arrival (fun x hx => hall x (by simp [hx]))
            (Or.inl (hall hd (by simp))) p hp' h1 h2
        · have heq : φ init hd = init := if_neg hc
          rw [heq]
          exact ih init (fun x hx => hall x (by simp [hx])) hinit p hp' h1 h2
  have aux3 : ∀ (l : List RProcess) (init : Int),
      l.foldl φ init = init ∨
        ∃ p ∈ l, 0 < p.remaining ∧ p.enqueued = false ∧ p.arrival = l.foldl φ init := by
    intro l
    induction l with
    | nil => intro init; exact Or.inl rfl
    | cons hd tl ih =>
      intro init
      simp only [List.foldl_cons]
      by_cases hc : 0 < hd.remaining ∧ ¬ hd.enqueued ∧ (init = -1 ∨ hd.arrival < init)
      · have heq : φ init hd = hd.arrival := if_pos hc
        rw [heq]
        rcases ih hd.arrival with h | ⟨p, hp, h1, h2, h3⟩
        · exact Or.inr ⟨hd, by simp, hc.1, by simpa using hc.2.1, h.symm⟩
        · exact Or.inr ⟨p, by simp [hp], h1, h2, h3⟩
      · have heq : φ init hd = init := if_neg hc
        rw [heq]
        rcases ih init with h | ⟨p, hp, h1, h2, h3⟩
        · exact Or.inl h
        · exact Or.inr ⟨p, by simp [hp], h1, h2, h3⟩
  have aux5 : ∀ (l : List RProcess) (init : Int), (∀ p ∈ l, 0 ≤ p.arrival) →
      (0 ≤ init ∨ init = -1) →
      (∃ p ∈ l, 0 < p.remaining ∧ p.enqueued = false) → 0 ≤ l.foldl φ init := by
    intro l
    induction l with
    | nil => rintro init _ _ ⟨p, hp, -⟩; simp at hp
    | cons hd tl ih =>
      rintro init hall hinit ⟨p, hp, h1, h2⟩
      simp only [List.foldl_cons]
      rcases List.mem_cons.mp hp with rfl | hp'
      · by_cases hc : 0 < p.remaining ∧ ¬ p.enqueued ∧ (init = -1 ∨ p.arrival < init)
        · have heq : φ init p = p.arrival := if_pos hc
          rw [heq]
          exact (aux1 tl p.arrival (hall p (by simp))
            (fun x hx => hall x (by simp [hx]))).1
        · have hne : ¬ p.enqueued := by simp [h2]
          have hinit' : 0 ≤ init := by
            rcases hinit with h | h
            · exact h
            · exact absurd ⟨h1, hne, Or.inl h⟩ hc
          have heq : φ init p = init := if_neg hc
          rw [heq]
          exact (aux1 tl init hinit' (fun x hx => hall x (by simp [hx]))).1
      · by_cases hc : 0 < hd.remaining ∧ ¬ hd.enqueued ∧ (init = -1 ∨ hd.arrival < init)
        · have heq : φ init hd = hd.arrival := if_pos hc
          rw [heq]
          exact (aux1 tl hd.arrival (hall hd (by simp))
            (fun x hx => hall x (by simp [hx]))).1
        · have heq : φ init hd = init := if_neg hc
          rw [heq]
          exact ih init (fun x hx => hall x (by simp [hx])) hinit ⟨p, hp', h1, h2⟩
  have hna : rrNextArr ps = ps.foldl φ (-1) := rfl
  have h0 : 0 ≤ ps.foldl φ (-1) := aux5 ps (-1) harr (Or.inr rfl) hcand
  refine ⟨hna ▸ h0, ?_, ?_⟩
  · rcases aux3 ps (-1) with h | h
    · rw [hna] at *
      omega
    · exact hna ▸ h
  · intro p hp h1 h2
    exact hna ▸ aux2 ps (-1) harr (Or.inr rfl) p hp h1 h2

/-- The pre-loop `earliest` scan of rr.c is a lower bound on all
arrivals. -/
theorem earliestArrival_le (ps : List RProcess) :
    ∀ p ∈ ps, earliestArrival ps ≤ p.arrival := by
  have aux : ∀ (l : List RProcess) (init : Int),
      l.foldl (fun e q => if q.arrival < e then q.arrival else e) init ≤ init ∧
        ∀ p ∈ l, l.foldl (fun e q => if q.arrival < e then q.arrival else e) init ≤
          p.arrival := by
    intro l
    induction l with
    | nil => intro init; exact ⟨le_refl _, by simp⟩
    | cons hd tl ih =>
      intro init
      simp only [List.foldl_cons]
      by_cases hc : hd.arrival < init
      · rw [if_pos hc]
        obtain ⟨a1, a2⟩ := ih hd.arrival
        refine ⟨by omega, ?_⟩
        intro p hp
        rcases List.mem_cons.mp hp with rfl | hp'
        · exact a1
        · exact a2 p hp'
      · rw [if_neg hc]
        obtain ⟨a1, a2⟩ := ih init
        refine ⟨a1, ?_⟩
        intro p hp
        rcases List.mem_cons.mp hp with rfl | hp'
        · omega
        · exact a2 p hp'
  intro p hp
  match ps, hp with
  | hd :: tl, hp =>
    unfold earliestArrival
    rcases List.mem_cons.mp hp with rfl | hp'
    · exact (aux tl p.arrival).1
    · exact (aux tl hd.arrival).2 p hp'

/-! Lemmas about `decAt` and `markArrived`, feeding the slice-loop
specification. -/

theorem markArrived_of_enqueued {t : Int} {p : RProcess} (h : p.enqueued = true) :
    markArrived t p = p := by
  unfold markArrived
  rw [if_neg (by simp [h])]

theorem rprocInv_mark {t u : Int} {p : RProcess} :
    rprocInv t (markArrived u p) ↔ rprocInv t p := by
  unfold rprocInv
  rw [markArrived_remaining, markArrived_arrival, markArrived_burst,
    markArrived_completion]

theorem countP_set {α : Type} (pr : α → Bool) :
    ∀ (l : List α) (i : Nat) (p x : α), l[i]? = some p → pr p = pr x →
      (l.set i x).countP pr = l.countP pr := by
  intro l
  induction l with
  | nil => intro i p x h; simp at h
  | cons hd tl ih =>
    intro i p x h hpr
    cases i with
    | zero =>
      simp only [List.getElem?_cons_zero, Option.some.injEq] at h
      subst h
      simp [List.set, List.countP_cons, hpr]
    | succ k =>
      simp only [List.getElem?_cons_succ] at h
      simp [List.set, List.countP_cons, ih k p x h hpr]

theorem decAt_length {ps : List RProcess} {i : Nat} : (decAt ps i).length = ps.length := by
  unfold decAt
  cases ps[i]? <;> simp

theorem decAt_get_self {ps : List RProcess} {i : Nat} {p : RProcess}
    (h : ps[i]? = some p) :
    (decAt ps i)[i]? = some { p with remaining := p.remaining - 1 } := by
  unfold decAt
  rw [h]
  have hlen : i < ps.length := (List.getElem?_eq_some_iff.mp h).1
  simp [List.getElem?_set, hlen]

theorem decAt_get_other {ps : List RProcess} {i j : Nat} (hij : j ≠ i) :
    (decAt ps i)[j]? = ps[j]? := by
  unfold decAt
  cases ps[i]? with
  | none => rfl
  | some p => exact List.getElem?_set_ne (by omega)

theorem sumRemainingR_map_mark (ps : List RProcess) (t : Int) :
    sumRemainingR (ps.map (markArrived t)) = sumRemainingR ps := by
  unfold sumRemainingR
  rw [List.map_map]
  congr 1
  exact List.map_congr_left fun p _ => markArrived_remaining t p

theorem sumBurstR_map_mark (ps : List RProcess) (t : Int) :
    sumBurstR (ps.map (markArrived t)) = sumBurstR ps := by
  unfold sumBurstR
  rw [List.map_map]
  congr 1
  exact List.map_congr_left fun p _ => markArrived_burst t p

theorem sumRemainingR_dec {ps : List RProcess} {i : Nat} {p : RProcess}
    (h : ps[i]? = some p) :
    sumRemainingR (decAt ps i) = sumRemainingR ps - 1 := by
  unfold decAt
  rw [h]
  have := map_sum_set RProcess.remaining ps i p
    { p with remaining := p.remaining - 1 } h
  unfold sumRemainingR
  rw [this]
  simp

theorem sumBurstR_dec {ps : List RProcess} {i : Nat} {p : RProcess}
    (h : ps[i]? = some p) :
    sumBurstR (decAt ps i) = sumBurstR ps := by
  unfold decAt
  rw [h]
  have := map_sum_set RProcess.burst ps i p
    { p with remaining := p.remaining - 1 } h
  unfold sumBurstR
  rw [this]
  simp

theorem notEnqCount_dec {ps : List RProcess} {i : Nat} : notEnqCount (decAt ps i) = notEnqCount ps := by
  unfold decAt
  cases h : ps[i]? with
  | none => rfl
  | some p =>
    exact countP_set _ ps i p _ h rfl

theorem remAt_dec_self {ps : List RProcess} {i : Nat} {p : RProcess}
    (h : ps[i]? = some p) : remAt (decAt ps i) i = p.remaining - 1 := by
  unfold remAt
  rw [decAt_get_self h]

theorem remAt_dec_other {ps : List RProcess} {i j : Nat} (hij : j ≠ i) :
    remAt (decAt ps i) j = remAt ps j := by
  unfold remAt
  rw [decAt_get_other hij]

theorem enqAt_dec {ps : List RProcess} {i j : Nat} :
    enqAt (decAt ps i) j = enqAt ps j := by
  unfold enqAt
  by_cases hij : j = i
  · subst hij
    cases h : ps[j]? with
    | none =>
      unfold decAt
      cases h2 : ps[j]? with
      | none => rw [h2]
      | some p => rw [h] at h2; cases h2
    | some p => simp [decAt_get_self h]
  · rw [decAt_get_other hij]

theorem arrAt_dec {ps : List RProcess} {i j : Nat} :
    arrAt (decAt ps i) j = arrAt ps j := by
  unfold arrAt
  by_cases hij : j = i
  · subst hij
    cases h : ps[j]? with
    | none =>
      unfold decAt
      cases h2 : ps[j]? with
      | none => rw [h2]
      | some p => rw [h] at h2; cases h2
    | some p => simp [decAt_get_self h]
  · rw [decAt_get_other hij]

theorem rprocInv_mono {t u : Int} {p : RProcess} (h : rprocInv t p) (htu : t ≤ u) :
    rprocInv u p := by
  unfold rprocInv at *
  omega

theorem remAt_eq {ps : List RProcess} {j : Nat} {y : RProcess} (h : ps[j]? = some y) :
    remAt ps j = y.remaining := by
  unfold remAt; rw [h]

theorem arrAt_eq {ps : List RProcess} {j : Nat} {y : RProcess} (h : ps[j]? = some y) :
    arrAt ps j = y.arrival := by
  unfold arrAt; rw [h]

theorem enqAt_eq {ps : List RProcess} {j : Nat} {y : RProcess} (h : ps[j]? = some y) :
    enqAt ps j = y.enqueued := by
  unfold enqAt; rw [h]

theorem pidAt_eq {ps : List RProcess} {j : Nat} {y : RProcess} (h : ps[j]? = some y) :
    pidAt ps j = y.pid := by
  unfold pidAt; rw [h]

/-- Effect of one slice unit (clock tick, decrement, enqueue sweep) on
the rr.c state, at running index `i`. -/
theorem unit_spec {i : Nat} {t : Int} {ps : List RProcess} {q : List Nat} {p : RProcess}
    (hget : ps[i]? = some p)
    (hpenq : p.enqueued = true)
    (hparr : p.arrival ≤ t)
    (hInvAll : ∀ x ∈ ps, rprocInv t x)
    (hIffAll : ∀ x ∈ ps, x.enqueued = true ↔ x.arrival ≤ t)
    (hFresh : ∀ x ∈ ps, x.enqueued = false → x.remaining = x.burst)
    (hNodup : q.Nodup) (hiq : i ∉ q)
    (hqmem : ∀ j ∈ q, j < ps.length ∧ 0 < remAt ps j ∧ enqAt ps j = true)
    (hdead : ∀ j < ps.length, enqAt ps j = true → j ∉ q → j ≠ i → remAt ps j = 0) :
    (enqueue_arrivals (decAt ps i) q (t + 1)).1.length = ps.length ∧
      (enqueue_arrivals (decAt ps i) q (t + 1)).1[i]? =
        some { p with remaining := p.remaining - 1 } ∧
      (∀ x ∈ (enqueue_arrivals (decAt ps i) q (t + 1)).1,
        x.enqueued = true ↔ x.arrival ≤ t + 1) ∧
      (∀ x ∈ (enqueue_arrivals (decAt ps i) q (t + 1)).1,
        x.enqueued = false → x.remaining = x.burst) ∧
      (∀ j x, (enqueue_arrivals (decAt ps i) q (t + 1)).1[j]? = some x → j ≠ i →
        rprocInv (t + 1) x) ∧
      (enqueue_arrivals (decAt ps i) q (t + 1)).2.Nodup ∧
      i ∉ (enqueue_arrivals (decAt ps i) q (t + 1)).2 ∧
      (∀ j ∈ q, j ∈ (enqueue_arrivals (decAt ps i) q (t + 1)).2) ∧
      (∀ j ∈ (enqueue_arrivals (decAt ps i) q (t + 1)).2, j < ps.length ∧
        0 < remAt (enqueue_arrivals (decAt ps i) q (t + 1)).1 j ∧
        enqAt (enqueue_arrivals (decAt ps i) q (t + 1)).1 j = true) ∧
      (∀ j < ps.length, enqAt (enqueue_arrivals (decAt ps i) q (t + 1)).1 j = true →
        j ∉ (enqueue_arrivals (decAt ps i) q (t + 1)).2 → j ≠ i →
        remAt (enqueue_arrivals (decAt ps i) q (t + 1)).1 j = 0) ∧
      (enqueue_arrivals (decAt ps i) q (t + 1)).2.length +
        notEnqCount (enqueue_arrivals (decAt ps i) q (t + 1)).1 =
        q.length + notEnqCount ps ∧
      sumRemainingR (enqueue_arrivals (decAt ps i) q (t + 1)).1 = sumRemainingR ps - 1 ∧
      sumBurstR (enqueue_arrivals (decAt ps i) q (t + 1)).1 = sumBurstR ps ∧
      (∀ x ∈ (enqueue_arrivals (decAt ps i) q (t + 1)).1, ∃ y ∈ ps, x.pid = y.pid) ∧
      notEnqCount (enqueue_arrivals (decAt ps i) q (t + 1)).1 ≤ notEnqCount ps := by
  have hlen_i : i < ps.length := (List.getElem?_eq_some_iff.mp hget).1
  have hfst := enqueue_arrivals_fst (decAt ps i) q (t + 1)
  have hsnd := enqueue_arrivals_snd (decAt ps i) q (t + 1)
  have hdlen : (decAt ps i).length = ps.length := decAt_length
  have hpd_enq : ({ p with remaining := p.remaining - 1 } : RProcess).enqueued = true :=
    hpenq
  -- membership decomposition for the updated table
  have hmem1 : ∀ x ∈ (enqueue_arrivals (decAt ps i) q (t + 1)).1,
      ∃ y, (y ∈ ps ∨ y = { p with remaining := p.remaining - 1 }) ∧
        x = markArrived (t + 1) y := by
    intro x hx
    rw [hfst] at hx
    obtain ⟨y, hy, rfl⟩ := List.mem_map.mp hx
    unfold decAt at hy
    rw [hget] at hy
    exact ⟨y, List.mem_or_eq_of_mem_set hy, rfl⟩
  refine ⟨?_, ?_, ?_, ?_, ?_, ?_, ?_, ?_, ?_, ?_, ?_, ?_, ?_, ?_, ?_⟩
  · rw [hfst, List.length_map, hdlen]
  · rw [hfst, List.getElem?_map, decAt_get_self hget]
    simp only [Option.map_some']
    rw [markArrived_of_enqueued hpd_enq]
  · intro x hx
    obtain ⟨y, hy, rfl⟩ := hmem1 x hx
    rw [markArrived_enqueued, markArrived_arrival]
    rcases hy with hy | rfl
    · have := hIffAll y hy
      constructor
      · rintro (h | h)
        · have := this.mp h; omega
        · exact h
      · intro h; exact Or.inr h
    · constructor
      · intro _
        show p.arrival ≤ t + 1
        omega
      · intro _
        exact Or.inl hpd_enq
  · intro x hx hxe
    obtain ⟨y, hy, rfl⟩ := hmem1 x hx
    have hyenq : y.enqueued = false := by
      by_cases hye : y.enqueued = true
      · rw [markArrived_of_enqueued hye] at hxe
        rw [hye] at hxe; cases hxe
      · simpa using hye
    rcases hy with hy | rfl
    · rw [markArrived_remaining, markArrived_burst]
      exact hFresh y hy hyenq
    · rw [hpd_enq] at hyenq; cases hyenq
  · intro j x hjx hji
    rw [hfst, List.getElem?_map] at hjx
    cases hdj : (decAt ps i)[j]? with
    | none => rw [hdj] at hjx; cases hjx
    | some y =>
      rw [hdj] at hjx
      simp only [Option.map_some', Option.some.injEq] at hjx
      subst hjx
      rw [decAt_get_other hji] at hdj
      have hymem : y ∈ ps := List.mem_iff_getElem?.mpr ⟨j, hdj⟩
      exact rprocInv_mark.mpr (rprocInv_mono (hInvAll y hymem) (by omega))
  · rw [hsnd]
    refine List.Nodup.append hNodup (newIdx_nodup _ 0) ?_
    intro j hjq hjn
    obtain ⟨y, hy1, hy2, -⟩ := newIdx_get _ 0 j hjn
    simp only [Nat.sub_zero] at hy1
    have hji : j ≠ i := fun h => hiq (h ▸ hjq)
    rw [decAt_get_other hji] at hy1
    have h3 := (hqmem j hjq).2.2
    rw [enqAt_eq hy1, hy2] at h3
    cases h3
  · rw [hsnd]
    intro hmem
    rcases List.mem_append.mp hmem with h | h
    · exact hiq h
    · obtain ⟨y, hy1, hy2, -⟩ := newIdx_get _ 0 i h
      simp only [Nat.sub_zero] at hy1
      rw [decAt_get_self hget] at hy1
      injection hy1 with hy1
      rw [← hy1] at hy2
      rw [hpd_enq] at hy2
      cases hy2
  · intro j hj
    rw [hsnd]
    exact List.mem_append_left _ hj
  · intro j hj
    rw [hsnd] at hj
    rcases List.mem_append.mp hj with hjq | hjn
    · obtain ⟨hj1, hj2, hj3⟩ := hqmem j hjq
      have hji : j ≠ i := fun h => hiq (h ▸ hjq)
      refine ⟨hj1, ?_, ?_⟩
      · rw [hfst, remAt_map_mark, remAt_dec_other hji]
        exact hj2
      · rw [hfst]
        exact (enqAt_map_mark _ _ _).mpr (Or.inl (by rw [enqAt_dec]; exact hj3))
    · obtain ⟨y, hy1, hy2, hy3⟩ := newIdx_get _ 0 j hjn
      simp only [Nat.sub_zero] at hy1
      have hji : j ≠ i := by
        intro h
        subst h
        rw [decAt_get_self hget] at hy1
        injection hy1 with hy1
        rw [← hy1] at hy2
        rw [hpd_enq] at hy2
        cases hy2
      rw [decAt_get_other hji] at hy1
      have hymem : y ∈ ps := List.mem_iff_getElem?.mpr ⟨j, hy1⟩
      have hjlen : j < ps.length := (List.getElem?_eq_some_iff.mp hy1).1
      have hyb := hFresh y hymem hy2
      have hyI := hInvAll y hymem
      unfold rprocInv at hyI
      refine ⟨hjlen, ?_, ?_⟩
      · rw [hfst, remAt_map_mark, remAt_dec_other hji, remAt_eq hy1]
        omega
      · rw [hfst]
        refine (enqAt_map_mark _ _ _).mpr (Or.inr ⟨by rwa [hdlen], ?_⟩)
        rw [arrAt_dec, arrAt_eq hy1]
        exact hy3
  · intro j hjlen henq hnq hji
    rw [hfst] at henq
    rw [hfst, remAt_map_mark, remAt_dec_other hji]
    rcases (enqAt_map_mark _ _ _).mp henq with h | ⟨-, h⟩
    · rw [enqAt_dec] at h
      refine hdead j hjlen h ?_ hji
      intro hjq
      apply hnq
      rw [hsnd]
      exact List.mem_append_left _ hjq
    · rw [arrAt_dec] at h
      by_cases henq2 : enqAt ps j = true
      · refine hdead j hjlen henq2 ?_ hji
        intro hjq
        apply hnq
        rw [hsnd]
        exact List.mem_append_left _ hjq
      · exfalso
        apply hnq
        rw [hsnd]
        refine List.mem_append_right _ ?_
        cases hpsj : ps[j]? with
        | none =>
          rw [List.getElem?_eq_none_iff] at hpsj
          omega
        | some y =>
          have hyenq : y.enqueued = false := by
            rw [enqAt_eq hpsj] at henq2
            simpa using henq2
          have hyarr : y.arrival ≤ t + 1 := by
            rw [arrAt_eq hpsj] at h
            exact h
          have := newIdx_complete (t := t + 1) (decAt ps i) 0 j y
            (by rw [decAt_get_other hji]; exact hpsj) hyenq hyarr
          simpa using this
  · rw [hsnd, List.length_append, hfst]
    have h1 := newIdx_count (t := t + 1) (decAt ps i) 0
    have h2 : notEnqCount (decAt ps i) = notEnqCount ps := notEnqCount_dec
    omega
  · rw [hfst, sumRemainingR_map_mark, sumRemainingR_dec hget]
  · rw [hfst, sumBurstR_map_mark, sumBurstR_dec hget]
  · intro x hx
    obtain ⟨y, hy, rfl⟩ := hmem1 x hx
    rcases hy with hy | rfl
    · exact ⟨y, hy, markArrived_pid _ _⟩
    · refine ⟨p, List.mem_iff_getElem?.mpr ⟨i, hget⟩, ?_⟩
      rw [markArrived_pid]
  · rw [hfst]
    have h1 := newIdx_count (t := t + 1) (decAt ps i) 0
    have h2 : notEnqCount (decAt ps i) = notEnqCount ps := notEnqCount_dec
    omega

/-- Full specification of the rr.c slice loop (rr.c lines 202-209) at
running index `i`, by induction on the slice fuel `k ≤ remaining`. -/
theorem runSlice_spec {i : Nat} :
    ∀ (k : Nat) (t : Int) (ps : List RProcess) (q : List Nat) (p : RProcess),
      ps[i]? = some p →
      p.enqueued = true →
      p.arrival ≤ t →
      (k : Int) ≤ p.remaining →
      (∀ x ∈ ps, rprocInv t x) →
      (∀ x ∈ ps, x.enqueued = true ↔ x.arrival ≤ t) →
      (∀ x ∈ ps, x.enqueued = false → x.remaining = x.burst) →
      q.Nodup → i ∉ q →
      (∀ j ∈ q, j < ps.length ∧ 0 < remAt ps j ∧ enqAt ps j = true) →
      (∀ j < ps.length, enqAt ps j = true → j ∉ q → j ≠ i → remAt ps j = 0) →
      (runSlice i k t ps q).1 = t + k ∧
        (runSlice i k t ps q).2.1.length = ps.length ∧
        (runSlice i k t ps q).2.1[i]? = some { p with remaining := p.remaining - k } ∧
        (∀ x ∈ (runSlice i k t ps q).2.1, x.enqueued = true ↔ x.arrival ≤ t + k) ∧
        (∀ x ∈ (runSlice i k t ps q).2.1, x.enqueued = false → x.remaining = x.burst) ∧
        (∀ j x, (runSlice i k t ps q).2.1[j]? = some x → j ≠ i → rprocInv (t + k) x) ∧
        (runSlice i k t ps q).2.2.Nodup ∧
        i ∉ (runSlice i k t ps q).2.2 ∧
        (∀ j ∈ (runSlice i k t ps q).2.2, j < ps.length ∧
          0 < remAt (runSlice i k t ps q).2.1 j ∧
          enqAt (runSlice i k t ps q).2.1 j = true) ∧
        (∀ j < ps.length, enqAt (runSlice i k t ps q).2.1 j = true →
          j ∉ (runSlice i k t ps q).2.2 → j ≠ i →
          remAt (runSlice i k t ps q).2.1 j = 0) ∧
        (runSlice i k t ps q).2.2.length + notEnqCount (runSlice i k t ps q).2.1 =
          q.length + notEnqCount ps ∧
        sumRemainingR (runSlice i k t ps q).2.1 = sumRemainingR ps - k ∧
        sumBurstR (runSlice i k t ps q).2.1 = sumBurstR ps ∧
        (∀ x ∈ (runSlice i k t ps q).2.1, ∃ y ∈ ps, x.pid = y.pid) ∧
        notEnqCount (runSlice i k t ps q).2.1 ≤ notEnqCount ps := by
  intro k
  induction k with
  | zero =>
    intro t ps q p hget hpenq hparr hkrem hInvAll hIffAll hFresh hNodup hiq hqmem hdead
    have hrec : ({ p with remaining := p.remaining - ((0 : Nat) : Int) } : RProcess) = p := by
      have : p.remaining - ((0 : Nat) : Int) = p.remaining := by push_cast; ring
      rw [this]
    unfold runSlice
    refine ⟨by push_cast; ring, rfl, by rw [hrec]; exact hget, ?_, hFresh, ?_, hNodup,
      hiq, hqmem, hdead, rfl, by push_cast; ring, rfl, fun x hx => ⟨x, hx, rfl⟩,
      le_refl _⟩
    · intro x hx
      have := hIffAll x hx
      simpa using this
    · intro j x hjx hji
      have hx : x ∈ ps := List.mem_iff_getElem?.mpr ⟨j, hjx⟩
      have := hInvAll x hx
      simpa using this
  | succ k ih =>
    intro t ps q p hget hpenq hparr hkrem hInvAll hIffAll hFresh hNodup hiq hqmem hdead
    have hprem : 0 < p.remaining := by
      have : ((k + 1 : Nat) : Int) = (k : Int) + 1 := by push_cast; ring
      omega
    obtain ⟨u1, u2, u3, u4, u5, u6, u7, u8, u9, u10, u11, u12, u13, u14, u15⟩ :=
      unit_spec hget hpenq hparr hInvAll hIffAll hFresh hNodup hiq hqmem hdead
    have hrm : remAt (enqueue_arrivals (decAt ps i) q (t + 1)).1 i = p.remaining - 1 :=
      remAt_eq u2
    have hkk : ((k + 1 : Nat) : Int) = (k : Int) + 1 := by push_cast; ring
    show (runSlice i (k + 1) t ps q).1 = t + ((k + 1 : Nat) : Int) ∧ _
    unfold runSlice
    by_cases hz : remAt (enqueue_arrivals (decAt ps i) q (t + 1)).1 i = 0
    · rw [if_pos hz]
      rw [hrm] at hz
      have hk0 : k = 0 := by omega
      subst hk0
      dsimp only
      have hrec : ({ p with remaining := p.remaining - ((0 + 1 : Nat) : Int) } : RProcess)
          = { p with remaining := p.remaining - 1 } := by
        have : p.remaining - ((0 + 1 : Nat) : Int) = p.remaining - 1 := by push_cast; ring
        rw [this]
      refine ⟨by push_cast; ring, u1, by rw [hrec]; exact u2, ?_, u4, ?_, u6, u7, ?_,
        ?_, ?_, by push_cast; omega, u13, u14, u15⟩
      · intro x hx
        have := u3 x hx
        have harith : t + 1 = t + ((0 + 1 : Nat) : Int) := by push_cast; ring
        rw [← harith]
        exact this
      · intro j x hjx hji
        have := u5 j x hjx hji
        have harith : t + 1 = t + ((0 + 1 : Nat) : Int) := by push_cast; ring
        rw [← harith]
        exact this
      · intro j hj
        exact u9 j hj
      · intro j hjlen henq hnq hji
        exact u10 j hjlen henq hnq hji
      · rw [u11]
    · rw [if_neg hz]
      rw [hrm] at hz
      -- the running record after one unit
      have hp1I : rprocInv (t + 1) ({ p with remaining := p.remaining - 1 } : RProcess) := by
        have hpI := hInvAll p (List.mem_iff_getElem?.mpr ⟨i, hget⟩)
        unfold rprocInv at hpI ⊢
        simp only
        omega
      have hInvAll' : ∀ x ∈ (enqueue_arrivals (decAt ps i) q (t + 1)).1,
          rprocInv (t + 1) x := by
        intro x hx
        obtain ⟨j, hj⟩ := List.mem_iff_getElem?.mp hx
        by_cases hji : j = i
        · subst hji
          rw [u2] at hj
          injection hj with hj
          rw [← hj]
          exact hp1I
        · exact u5 j x hj hji
      have hqmem' : ∀ j ∈ (enqueue_arrivals (decAt ps i) q (t + 1)).2,
          j < (enqueue_arrivals (decAt ps i) q (t + 1)).1.length ∧
            0 < remAt (enqueue_arrivals (decAt ps i) q (t + 1)).1 j ∧
            enqAt (enqueue_arrivals (decAt ps i) q (t + 1)).1 j = true := by
        intro j hj
        obtain ⟨h1, h2, h3⟩ := u9 j hj
        exact ⟨by rwa [u1], h2, h3⟩
      have hdead' : ∀ j < (enqueue_arrivals (decAt ps i) q (t + 1)).1.length,
          enqAt (enqueue_arrivals (decAt ps i) q (t + 1)).1 j = true →
            j ∉ (enqueue_arrivals (decAt ps i) q (t + 1)).2 → j ≠ i →
            remAt (enqueue_arrivals (decAt ps i) q (t + 1)).1 j = 0 := by
        intro j hjlen
        exact u10 j (by rwa [u1] at hjlen)
      obtain ⟨c1, c2, c3, c4, c5, c6, c7, c8, c9, c10, c11, c12, c13, c14, c15⟩ :=
        ih (t + 1) (enqueue_arrivals (decAt ps i) q (t + 1)).1
          (enqueue_arrivals (decAt ps i) q (t + 1)).2
          { p with remaining := p.remaining - 1 }
          u2 hpenq (by show p.arrival ≤ t + 1; omega)
          (by show (k : Int) ≤ p.remaining - 1; omega)
          hInvAll' u3 u4 u6 u7 hqmem' hdead'
      have harith : t + 1 + (k : Int) = t + ((k + 1 : Nat) : Int) := by push_cast; ring
      have hrec : ({ { p with remaining := p.remaining - 1 } with
            remaining := ({ p with remaining := p.remaining - 1 } : RProcess).remaining
              - (k : Int) } : RProcess) =
          { p with remaining := p.remaining - ((k + 1 : Nat) : Int) } := by
        show ({ p with remaining := p.remaining - 1 - (k : Int) } : RProcess) = _
        have : p.remaining - 1 - (k : Int) = p.remaining - ((k + 1 : Nat) : Int) := by
          push_cast; ring
        rw [this]
      refine ⟨by rw [c1, harith], by rw [c2, u1], by rw [c3, hrec], ?_, c5, ?_, c7, c8,
        ?_, ?_, ?_, ?_, by rw [c13, u13], ?_, le_trans c15 u15⟩
      · intro x hx
        rw [← harith]
        exact c4 x hx
      · intro j x hjx hji
        rw [← harith]
        exact c6 j x hjx hji
      · intro j hj
        obtain ⟨h1, h2, h3⟩ := c9 j hj
        exact ⟨by rwa [u1] at h1, h2, h3⟩
      · intro j hjlen henq hnq hji
        exact c10 j (by rwa [← u1] at hjlen) henq hnq hji
      · omega
      · rw [c12, u12]
        push_cast
        ring
      · intro x hx
        obtain ⟨y, hy, hxy⟩ := c14 x hx
        obtain ⟨z, hz', hyz⟩ := u14 y hy
        exact ⟨z, hz', by rw [hxy, hyz]⟩

theorem all_doneR_iff {ps : List RProcess} :
    all_doneR ps = true ↔ ∀ p ∈ ps, p.remaining ≤ 0 := by
  simp [all_doneR, List.all_eq_true]

theorem setCompletionAt_length {ps : List RProcess} {i : Nat} {v : Int} :
    (setCompletionAt ps i v).length = ps.length := by
  unfold setCompletionAt
  cases ps[i]? <;> simp

theorem setCompletionAt_get_self {ps : List RProcess} {i : Nat} {p : RProcess} {v : Int}
    (h : ps[i]? = some p) :
    (setCompletionAt ps i v)[i]? = some { p with completion := v } := by
  unfold setCompletionAt
  rw [h]
  have hlen : i < ps.length := (List.getElem?_eq_some_iff.mp h).1
  simp [List.getElem?_set, hlen]

theorem setCompletionAt_get_other {ps : List RProcess} {i j : Nat} {v : Int}
    (hij : j ≠ i) : (setCompletionAt ps i v)[j]? = ps[j]? := by
  unfold setCompletionAt
  cases ps[i]? with
  | none => rfl
  | some p => exact List.getElem?_set_ne (by omega)

theorem remAt_setComp {ps : List RProcess} {i j : Nat} {v : Int} :
    remAt (setCompletionAt ps i v) j = remAt ps j := by
  by_cases hij : j = i
  · subst hij
    cases h : ps[j]? with
    | none =>
      unfold remAt setCompletionAt
      rw [h, h]
    | some p => rw [remAt_eq (setCompletionAt_get_self h), remAt_eq h]
  · unfold remAt
    rw [setCompletionAt_get_other hij]

theorem enqAt_setComp {ps : List RProcess} {i j : Nat} {v : Int} :
    enqAt (setCompletionAt ps i v) j = enqAt ps j := by
  by_cases hij : j = i
  · subst hij
    cases h : ps[j]? with
    | none =>
      unfold enqAt setCompletionAt
      rw [h, h]
    | some p => rw [enqAt_eq (setCompletionAt_get_self h), enqAt_eq h]
  · unfold enqAt
    rw [setCompletionAt_get_other hij]

theorem mem_setCompletionAt {ps : List RProcess} {i : Nat} {p : RProcess} {v : Int}
    (h : ps[i]? = some p) :
    ∀ x ∈ setCompletionAt ps i v, x ∈ ps ∨ x = { p with completion := v } := by
  intro x hx
  unfold setCompletionAt at hx
  rw [h] at hx
  exact List.mem_or_eq_of_mem_set hx

theorem sumRemainingR_setComp {ps : List RProcess} {i : Nat} {v : Int} :
    sumRemainingR (setCompletionAt ps i v) = sumRemainingR ps := by
  unfold setCompletionAt
  cases h : ps[i]? with
  | none => rfl
  | some p =>
    unfold sumRemainingR
    rw [map_sum_set RProcess.remaining ps i p _ h]
    simp

theorem sumBurstR_setComp {ps : List RProcess} {i : Nat} {v : Int} :
    sumBurstR (setCompletionAt ps i v) = sumBurstR ps := by
  unfold setCompletionAt
  cases h : ps[i]? with
  | none => rfl
  | some p =>
    unfold sumBurstR
    rw [map_sum_set RProcess.burst ps i p _ h]
    simp

theorem notEnqCount_setComp {ps : List RProcess} {i : Nat} {v : Int} :
    notEnqCount (setCompletionAt ps i v) = notEnqCount ps := by
  unfold setCompletionAt
  cases h : ps[i]? with
  | none => rfl
  | some p => exact countP_set _ ps i p _ h rfl

/-- Invariant preservation for one iteration of the rr.c main loop. -/
theorem rrInv_step {quantum : Int} (hquantum : 0 < quantum) {s s' : RrState}
    (hInv : rrInv s) (hstep : rrStep quantum s = some s') : rrInv s' := by
  obtain ⟨ht, hnd, hqlen, hqmem, hIff, hFresh, hdead, hInvAll, hchain, hadj, hdmax⟩ := hInv
  have harr : ∀ x ∈ s.procs, 0 ≤ x.arrival := fun x hx => (hInvAll x hx).2.2.2.1
  unfold rrStep at hstep
  by_cases hdone : all_doneR s.procs
  · rw [if_pos hdone] at hstep; cases hstep
  · rw [if_neg hdone] at hstep
    rcases hsq : s.q with _ | ⟨i, rest⟩
    · -- idle branch
      rw [hsq] at hstep
      have hcand : ∃ x ∈ s.procs, 0 < x.remaining ∧ x.enqueued = false := by
        have hex : ∃ x ∈ s.procs, 0 < x.remaining := by
          by_contra hc
          push_neg at hc
          exact hdone (all_doneR_iff.mpr fun p hp => by have := hc p hp; omega)
        obtain ⟨x, hx, hxr⟩ := hex
        refine ⟨x, hx, hxr, ?_⟩
        by_cases hxe : x.enqueued = true
        · obtain ⟨j, hj⟩ := List.mem_iff_getElem?.mp hx
          have hjlen : j < s.procs.length := (List.getElem?_eq_some_iff.mp hj).1
          have := hdead j hjlen (by rw [enqAt_eq hj]; exact hxe)
            (by rw [hsq]; simp)
          rw [remAt_eq hj] at this
          omega
        · simpa using hxe
      obtain ⟨hna0, ⟨p₀, hp₀, hp₀r, hp₀e, hp₀a⟩, hnamin⟩ :=
        rrNextArr_spec s.procs harr hcand
      by_cases hna : rrNextArr s.procs = -1
      · rw [if_pos hna] at hstep; cases hstep
      · rw [if_neg hna] at hstep
        have htn : s.t < rrNextArr s.procs := by
          have := hIff p₀ hp₀
          rw [hp₀e] at this
          have : ¬ p₀.arrival ≤ s.t := by
            intro hle
            have := this.mpr hle
            cases this
          omega
        rw [if_pos htn] at hstep
        injection hstep with hs
        subst hs
        unfold rrInv
        dsimp only
        have hfst := enqueue_arrivals_fst s.procs [] (rrNextArr s.procs)
        have hsnd := enqueue_arrivals_snd s.procs [] (rrNextArr s.procs)
        rw [List.nil_append] at hsnd
        refine ⟨by omega, ?_, ?_, ?_, ?_, ?_, ?_, ?_,
          rchain_add_segment hchain htn, adjDistinct_add_segment hchain hadj, ?_⟩
        · rw [hsnd]
          exact newIdx_nodup _ 0
        · intro j hj
          rw [hsnd] at hj
          have := (newIdx_ge _ 0 j hj).2
          rw [hfst, List.length_map]
          omega
        · intro j hj
          rw [hsnd] at hj
          obtain ⟨y, hy1, hy2, hy3⟩ := newIdx_get _ 0 j hj
          simp only [Nat.sub_zero] at hy1
          have hymem : y ∈ s.procs := List.mem_iff_getElem?.mpr ⟨j, hy1⟩
          have hyb := hFresh y hymem hy2
          have hyI := hInvAll y hymem
          unfold rprocInv at hyI
          constructor
          · rw [hfst, remAt_map_mark, remAt_eq hy1]
            omega
          · rw [hfst]
            refine (enqAt_map_mark _ _ _).mpr (Or.inr ⟨?_, ?_⟩)
            · exact (List.getElem?_eq_some_iff.mp hy1).1
            · rw [arrAt_eq hy1]; exact hy3
        · intro x hx
          rw [hfst] at hx
          obtain ⟨y, hy, rfl⟩ := List.mem_map.mp hx
          rw [markArrived_enqueued, markArrived_arrival]
          constructor
          · rintro (h | h)
            · have := (hIff y hy).mp h
              omega
            · exact h
          · intro h; exact Or.inr h
        · intro x hx hxe
          rw [hfst] at hx
          obtain ⟨y, hy, rfl⟩ := List.mem_map.mp hx
          have hyenq : y.enqueued = false := by
            by_cases hye : y.enqueued = true
            · rw [markArrived_of_enqueued hye] at hxe
              rw [hye] at hxe; cases hxe
            · simpa using hye
          rw [markArrived_remaining, markArrived_burst]
          exact hFresh y hy hyenq
        · intro j hjlen henq hnq
          rw [hfst] at henq hjlen ⊢
          rw [List.length_map] at hjlen
          rw [remAt_map_mark]
          rcases (enqAt_map_mark _ _ _).mp henq with h | ⟨-, h⟩
          · exact hdead j hjlen h (by rw [hsq]; simp)
          · by_cases hye : enqAt s.procs j = true
            · exact hdead j hjlen hye (by rw [hsq]; simp)
            · exfalso
              apply hnq
              rw [hsnd]
              cases hpsj : s.procs[j]? with
              | none =>
                rw [List.getElem?_eq_none_iff] at hpsj
                omega
              | some y =>
                have hyenq : y.enqueued = false := by
                  rw [enqAt_eq hpsj] at hye
                  simpa using hye
                have := newIdx_complete (t := rrNextArr s.procs) s.procs 0 j y hpsj hyenq
                  (by rw [arrAt_eq hpsj] at h; exact h)
                simpa using this
        · intro x hx
          rw [hfst] at hx
          obtain ⟨y, hy, rfl⟩ := List.mem_map.mp hx
          exact rprocInv_mark.mpr (rprocInv_mono (hInvAll y hy) (by omega))
        · intro hdone'
          exfalso
          have : markArrived (rrNextArr s.procs) p₀ ∈
              (enqueue_arrivals s.procs [] (rrNextArr s.procs)).1 := by
            rw [hfst]
            exact List.mem_map.mpr ⟨p₀, hp₀, rfl⟩
          have := all_doneR_iff.mp hdone' _ this
          rw [markArrived_remaining] at this
          omega
    · -- pop branch
      rw [hsq] at hstep
      dsimp only at hstep
      have hilen : i < s.procs.length := hqlen i (by rw [hsq]; simp)
      obtain ⟨p, hp⟩ : ∃ p, s.procs[i]? = some p := by
        cases h : s.procs[i]? with
        | none =>
          rw [List.getElem?_eq_none_iff] at h
          omega
        | some p => exact ⟨p, rfl⟩
      have hienq : p.enqueued = true := by
        have := (hqmem i (by rw [hsq]; simp)).2
        rwa [enqAt_eq hp] at this
      have hirem : 0 < p.remaining := by
        have := (hqmem i (by rw [hsq]; simp)).1
        rwa [remAt_eq hp] at this
      have hiarr : p.arrival ≤ s.t := (hIff p (List.mem_iff_getElem?.mpr ⟨i, hp⟩)).mp hienq
      have hr0 : ¬ remAt s.procs i ≤ 0 := by rw [remAt_eq hp]; omega
      rw [if_neg hr0] at hstep
      have hirest : i ∉ rest := by
        have := hnd
        rw [hsq] at this
        exact (List.nodup_cons.mp this).1
      have hrestnd : rest.Nodup := by
        have := hnd
        rw [hsq] at this
        exact (List.nodup_cons.mp this).2
      have hslice : (min (remAt s.procs i) quantum).toNat ≤ p.remaining := by
        rw [remAt_eq hp]
        omega
      have hslice1 : 1 ≤ (min (remAt s.procs i) quantum).toNat := by
        rw [remAt_eq hp]
        omega
      have hsliceInt : ((min (remAt s.procs i) quantum).toNat : Int) =
          min p.remaining quantum := by
        rw [remAt_eq hp]
        omega
      obtain ⟨c1, c2, c3, c4, c5, c6, c7, c8, c9, c10, c11, c12, c13, c14⟩ :=
        runSlice_spec (min (remAt s.procs i) quantum).toNat s.t s.procs rest p
          hp hienq hiarr (by omega)
          hInvAll hIff hFresh hrestnd hirest
          (fun j hj => ⟨hqlen j (by rw [hsq]; simp [hj]),
            (hqmem j (by rw [hsq]; simp [hj]))⟩)
          (fun j hjlen henq hnq hji =>
            hdead j hjlen henq (by rw [hsq]; simp; exact ⟨fun h => hji h, hnq⟩))
      set k := (min (remAt s.procs i) quantum).toNat with hk
      have htlt : s.t < (runSlice i k s.t s.procs rest).1 := by
        rw [c1]
        omega
      have hchain' : rchain 0
          (add_segment s.segs (pidAt s.procs i) s.t (runSlice i k s.t s.procs rest).1)
          (runSlice i k s.t s.procs rest).1 := rchain_add_segment hchain htlt
      have hadj' := @adjDistinct_add_segment 0 s.t
        ((runSlice i k s.t s.procs rest).1) (pidAt s.procs i) s.segs hchain hadj
      have hrem' : remAt (runSlice i k s.t s.procs rest).2.1 i = p.remaining - k :=
        remAt_eq c3
      by_cases hfin : remAt (runSlice i k s.t s.procs rest).2.1 i = 0
      · rw [if_pos hfin] at hstep
        injection hstep with hs
        subst hs
        unfold rrInv
        dsimp only
        have hpI := hInvAll p (List.mem_iff_getElem?.mpr ⟨i, hp⟩)
        unfold rprocInv at hpI
        have hkrem : (k : Int) = p.remaining := by omega
        refine ⟨by omega, c7, ?_, ?_, ?_, ?_, ?_, ?_, hchain', hadj', ?_⟩
        · intro j hj
          have := (c9 j hj).1
          rw [setCompletionAt_length, c2]
          exact this
        · intro j hj
          obtain ⟨-, h2, h3⟩ := c9 j hj
          rw [remAt_setComp, enqAt_setComp]
          exact ⟨h2, h3⟩
        · intro x hx
          rw [c1]
          rcases mem_setCompletionAt c3 x hx with hx' | rfl
          · exact c4 x hx'
          · constructor
            · intro _
              show p.arrival ≤ _
              omega
            · intro _
              exact hienq
        · intro x hx hxe
          rcases mem_setCompletionAt c3 x hx with hx' | rfl
          · exact c5 x hx' hxe
          · rw [hienq] at hxe; cases hxe
        · intro j hjlen henq hnq
          rw [setCompletionAt_length, c2] at hjlen
          rw [remAt_setComp]
          rw [enqAt_setComp] at henq
          by_cases hji : j = i
          · subst hji
            rw [hrem']
            omega
          · exact c10 j hjlen henq hnq hji
        · intro x hx
          rw [c1]
          obtain ⟨j, hj⟩ := List.mem_iff_getElem?.mp hx
          by_cases hji : j = i
          · subst hji
            rw [setCompletionAt_get_self c3] at hj
            injection hj with hj
            rw [← hj]
            unfold rprocInv
            simp only
            rw [c1]
            omega
          · rw [setCompletionAt_get_other hji] at hj
            exact c6 j x hj hji
        · intro hdone'
          rw [c1]
          have hstamp : ({ { p with remaining := p.remaining - (k : Int) } with
              completion := (runSlice i k s.t s.procs rest).1 } : RProcess) ∈
              setCompletionAt (runSlice i k s.t s.procs rest).2.1 i
                (runSlice i k s.t s.procs rest).1 :=
            List.mem_iff_getElem?.mpr
              ⟨i, setCompletionAt_get_self (v := (runSlice i k s.t s.procs rest).1) c3⟩
          apply le_antisymm
          · unfold maxCompletionR
            apply foldl_max_le RProcess.completion
            · omega
            · intro x hx
              obtain ⟨j, hj⟩ := List.mem_iff_getElem?.mp hx
              by_cases hji : j = i
              · subst hji
                rw [setCompletionAt_get_self c3] at hj
                injection hj with hj
                have hcx := congrArg RProcess.completion hj
                dsimp only at hcx
                omega
              · rw [setCompletionAt_get_other hji] at hj
                have := c6 j x hj hji
                unfold rprocInv at this
                omega
          · have hle := le_foldl_max RProcess.completion
              (setCompletionAt (runSlice i k s.t s.procs rest).2.1 i
                (runSlice i k s.t s.procs rest).1) 0 _ hstamp
            simp only at hle
            rw [c1] at hle
            unfold maxCompletionR
            omega
      · rw [if_neg hfin] at hstep
        injection hstep with hs
        subst hs
        unfold rrInv
        dsimp only
        have hpI := hInvAll p (List.mem_iff_getElem?.mpr ⟨i, hp⟩)
        unfold rprocInv at hpI
        refine ⟨by omega, ?_, ?_, ?_, ?_, c5, ?_, ?_, hchain', hadj', ?_⟩
        · rw [List.nodup_append]
          refine ⟨c7, by simp, ?_⟩
          intro j hj
          simp only [List.mem_singleton]
          intro hji
          subst hji
          exact c8 hj
        · intro j hj
          rw [c2]
          rcases List.mem_append.mp hj with hj' | hj'
          · exact (c9 j hj').1
          · simp only [List.mem_singleton] at hj'
            subst hj'
            exact hilen
        · intro j hj
          rcases List.mem_append.mp hj with hj' | hj'
          · exact ⟨(c9 j hj').2.1, (c9 j hj').2.2⟩
          · simp only [List.mem_singleton] at hj'
            subst hj'
            rw [hrem', enqAt_eq c3]
            refine ⟨by omega, hienq⟩
        · intro x hx
          rw [c1]
          exact c4 x hx
        · intro j hjlen henq hnq
          have hji : j ≠ i := by
            intro hji
            subst hji
            exact hnq (List.mem_append_right _ (by simp))
          exact c10 j (c2 ▸ hjlen) henq
            (fun hj => hnq (List.mem_append_left _ hj)) hji
        · intro x hx
          obtain ⟨j, hj⟩ := List.mem_iff_getElem?.mp hx
          by_cases hji : j = i
          · subst hji
            rw [c3] at hj
            injection hj with hj
            rw [← hj]
            unfold rprocInv
            simp only
            rw [c1]
            constructor
            · omega
            constructor
            · omega
            constructor
            · omega
            constructor
            · omega
            constructor
            · intro h
              omega
            · left
              constructor
              · show p.completion = -1
                omega
              · rw [hrem'] at hfin
                omega
          · exact c1.symm ▸ c6 j x hj hji
        · intro hdone'
          exfalso
          have hmem : ({ p with remaining := p.remaining - (k : Int) } : RProcess) ∈
              (runSlice i k s.t s.procs rest).2.1 :=
            List.mem_iff_getElem?.mpr ⟨i, c3⟩
          have := all_doneR_iff.mp hdone' _ hmem
          simp only at this
          rw [hrem'] at hfin
          omega

/-- The rr.c pre-loop setup establishes the loop invariant. -/
theorem rrInv_init {ps : List RProcess} (hv : validTableR ps) : rrInv (rrInit ps) := by
  obtain ⟨hne, hall⟩ := hv
  have harr : ∀ p ∈ ps, 0 ≤ p.arrival := fun p hp => (hall p hp).1
  unfold rrInit
  set e := earliestArrival ps with he
  set t0 : Int := if 0 < e then e else 0 with ht0
  have ht0nn : 0 ≤ t0 := by
    rw [ht0]
    split <;> omega
  have hfst := enqueue_arrivals_fst ps [] t0
  have hsnd := enqueue_arrivals_snd ps [] t0
  rw [List.nil_append] at hsnd
  have hchain0 : rchain 0 (if 0 < e then add_segment [] (-1) 0 e else []) t0 := by
    rw [ht0]
    by_cases h0e : 0 < e
    · rw [if_pos h0e, if_pos h0e]
      exact rchain_add_segment (by rfl) h0e
    · rw [if_neg h0e, if_neg h0e]
      rfl
  have hadj0 : adjDistinct (if 0 < e then add_segment [] (-1) 0 e else []) := by
    by_cases h0e : 0 < e
    · rw [if_pos h0e]
      exact adjDistinct_add_segment (by rfl : rchain 0 ([] : List Segment) 0) trivial
    · rw [if_neg h0e]
      trivial
  unfold rrInv
  dsimp only
  refine ⟨ht0nn, ?_, ?_, ?_, ?_, ?_, ?_, ?_, hchain0, hadj0, ?_⟩
  · rw [hsnd]
    exact newIdx_nodup _ 0
  · intro j hj
    rw [hsnd] at hj
    have := (newIdx_ge _ 0 j hj).2
    rw [hfst, List.length_map]
    omega
  · intro j hj
    rw [hsnd] at hj
    obtain ⟨y, hy1, hy2, hy3⟩ := newIdx_get _ 0 j hj
    simp only [Nat.sub_zero] at hy1
    have hymem : y ∈ ps := List.mem_iff_getElem?.mpr ⟨j, hy1⟩
    obtain ⟨-, hb, hrem, -, -⟩ := hall y hymem
    constructor
    · rw [hfst, remAt_map_mark, remAt_eq hy1]
      omega
    · rw [hfst]
      exact (enqAt_map_mark _ _ _).mpr
        (Or.inr ⟨(List.getElem?_eq_some_iff.mp hy1).1, by rw [arrAt_eq hy1]; exact hy3⟩)
  · intro x hx
    rw [hfst] at hx
    obtain ⟨y, hy, rfl⟩ := List.mem_map.mp hx
    rw [markArrived_enqueued, markArrived_arrival]
    have hyenq : y.enqueued = false := (hall y hy).2.2.2.2
    constructor
    · rintro (h | h)
      · rw [hyenq] at h; cases h
      · exact h
    · intro h; exact Or.inr h
  · intro x hx hxe
    rw [hfst] at hx
    obtain ⟨y, hy, rfl⟩ := List.mem_map.mp hx
    rw [markArrived_remaining, markArrived_burst]
    exact (hall y hy).2.2.1
  · intro j hjlen henq hnq
    exfalso
    apply hnq
    rw [hfst] at henq hjlen
    rw [List.length_map] at hjlen
    rw [hsnd]
    cases hpsj : ps[j]? with
    | none =>
      rw [List.getElem?_eq_none_iff] at hpsj
      omega
    | some y =>
      have hyenq : y.enqueued = false := (hall y (List.mem_iff_getElem?.mpr ⟨j, hpsj⟩)).2.2.2.2
      have hyarr : y.arrival ≤ t0 := by
        rcases (enqAt_map_mark _ _ _).mp henq with h | ⟨-, h⟩
        · rw [enqAt_eq hpsj, hyenq] at h; cases h
        · rw [arrAt_eq hpsj] at h; exact h
      have := newIdx_complete (t := t0) ps 0 j y hpsj hyenq hyarr
      simpa using this
  · intro x hx
    rw [hfst] at hx
    obtain ⟨y, hy, rfl⟩ := List.mem_map.mp hx
    obtain ⟨h1, h2, h3, h4, -⟩ := hall y hy
    refine rprocInv_mark.mpr ?_
    unfold rprocInv
    omega
  · intro hdone'
    exfalso
    obtain ⟨q0, l, rfl⟩ : ∃ q0 l, ps = q0 :: l := by
      cases ps with
      | nil => exact absurd rfl hne
      | cons q0 l => exact ⟨q0, l, rfl⟩
    have hq0 : markArrived t0 q0 ∈ (enqueue_arrivals (q0 :: l) [] t0).1 := by
      rw [hfst]
      exact List.mem_map.mpr ⟨q0, by simp, rfl⟩
    have := all_doneR_iff.mp hdone' _ hq0
    rw [markArrived_remaining] at this
    obtain ⟨-, hb, hrem, -⟩ := hall q0 (by simp)
    omega

theorem rrInv_run (quantum : Int) (hq : 0 < quantum) :
    ∀ (f : Nat) (s : RrState), rrInv s → rrInv (rrRun quantum f s) := by
  intro f
  induction f with
  | zero => intro s h; exact h
  | succ k ih =>
    intro s h
    rcases hs : rrStep quantum s with _ | s'
    · simpa [rrRun, hs] using h
    · have := rrInv_step hq h hs
      simpa [rrRun, hs] using ih s' this

/-- Work accounting for one sjf.c step: bursts and pids are preserved,
and when no pid collides with the IDLE sentinel, non-IDLE segment time
plus remaining work is conserved. -/
theorem sjf_sum_step {s s' : SjfState} (hstep : sjfStep s = some s') :
    sumBurst s'.procs = sumBurst s.procs ∧
      (∀ x ∈ s'.procs, ∃ y ∈ s.procs, x.pid = y.pid) ∧
      ((∀ x ∈ s.procs, x.pid ≠ -1) →
        sumNonIdle s'.segs + sumRemaining s'.procs =
          sumNonIdle s.segs + sumRemaining s.procs) := by
  unfold sjfStep at hstep
  by_cases hdone : all_done s.procs
  · rw [if_pos hdone] at hstep; cases hstep
  · rw [if_neg hdone] at hstep
    rcases hp : srtfPick s.procs s.t with _ | ⟨i, p⟩
    · rw [hp] at hstep
      by_cases hna : sjfNextArr s.procs s.t = INT_MAX
      · rw [if_pos hna] at hstep; cases hstep
      · rw [if_neg hna] at hstep
        injection hstep with hs
        subst hs
        refine ⟨rfl, fun x hx => ⟨x, hx, rfl⟩, ?_⟩
        intro _
        dsimp only
        rw [sumNonIdle_add_segment, if_pos rfl]
        ring
    · rw [hp] at hstep
      simp only [Option.some.injEq] at hstep
      subst hstep
      obtain ⟨hget, hel, -⟩ := srtfPick_elig hp
      have hpmem : p ∈ s.procs := List.mem_iff_getElem?.mpr ⟨i, hget⟩
      dsimp only
      refine ⟨?_, ?_, ?_⟩
      · have := sumBurst_set (runPicked p s.t) hget
        rw [runPicked_burst] at this
        omega
      · intro x hx
        rcases List.mem_or_eq_of_mem_set hx with hx' | rfl
        · exact ⟨x, hx', rfl⟩
        · exact ⟨p, hpmem, runPicked_pid p s.t⟩
      · intro hpid
        have h1 := sumRemaining_set (runPicked p s.t) hget
        rw [runPicked_remaining] at h1
        rw [sumNonIdle_add_segment, if_neg (hpid p hpmem), h1]
        ring

theorem sjf_sum_run :
    ∀ (f : Nat) (s : SjfState), (∀ x ∈ s.procs, x.pid ≠ -1) →
      sumBurst (sjfRun f s).procs = sumBurst s.procs ∧
        (∀ x ∈ (sjfRun f s).procs, x.pid ≠ -1) ∧
        sumNonIdle (sjfRun f s).segs + sumRemaining (sjfRun f s).procs =
          sumNonIdle s.segs + sumRemaining s.procs := by
  intro f
  induction f with
  | zero => intro s hpid; exact ⟨rfl, hpid, rfl⟩
  | succ k ih =>
    intro s hpid
    rcases hs : sjfStep s with _ | s'
    · have heq : sjfRun (k + 1) s = s := by simp [sjfRun, hs]
      rw [heq]
      exact ⟨rfl, hpid, rfl⟩
    · obtain ⟨b1, b2, b3⟩ := sjf_sum_step hs
      have hpid' : ∀ x ∈ s'.procs, x.pid ≠ -1 := by
        intro x hx
        obtain ⟨y, hy, hxy⟩ := b2 x hx
        rw [hxy]
        exact hpid y hy
      obtain ⟨d1, d2, d3⟩ := ih s' hpid'
      simp only [sjfRun, hs]
      exact ⟨by rw [d1, b1], d2, by rw [d3, b3 hpid]⟩

/-- Measure decrease and work accounting for one rr.c step. -/
theorem rrStep_accounting {quantum : Int} (hquantum : 0 < quantum) {s s' : RrState}
    (hInv : rrInv s) (hstep : rrStep quantum s = some s') :
    rrMeasure s' < rrMeasure s ∧
      sumBurstR s'.procs = sumBurstR s.procs ∧
      (∀ x ∈ s'.procs, ∃ y ∈ s.procs, x.pid = y.pid) ∧
      ((∀ x ∈ s.procs, x.pid ≠ -1) →
        sumNonIdle s'.segs + sumRemainingR s'.procs =
          sumNonIdle s.segs + sumRemainingR s.procs) := by
  have hInv' := rrInv_step hquantum hInv hstep
  have hrem' : 0 ≤ sumRemainingR s'.procs := by
    have := hInv'.2.2.2.2.2.2.2.1
    unfold sumRemainingR
    apply List.sum_nonneg
    intro x hx
    obtain ⟨y, hy, rfl⟩ := List.mem_map.mp hx
    exact (this y hy).1
  obtain ⟨ht, hnd, hqlen, hqmem, hIff, hFresh, hdead, hInvAll, hchain, hadj, hdmax⟩ := hInv
  have harr : ∀ x ∈ s.procs, 0 ≤ x.arrival := fun x hx => (hInvAll x hx).2.2.2.1
  unfold rrStep at hstep
  by_cases hdone : all_doneR s.procs
  · rw [if_pos hdone] at hstep; cases hstep
  · rw [if_neg hdone] at hstep
    rcases hsq : s.q with _ | ⟨i, rest⟩
    · rw [hsq] at hstep
      have hcand : ∃ x ∈ s.procs, 0 < x.remaining ∧ x.enqueued = false := by
        have hex : ∃ x ∈ s.procs, 0 < x.remaining := by
          by_contra hc
          push_neg at hc
          exact hdone (all_doneR_iff.mpr fun p hp => by have := hc p hp; omega)
        obtain ⟨x, hx, hxr⟩ := hex
        refine ⟨x, hx, hxr, ?_⟩
        by_cases hxe : x.enqueued = true
        · obtain ⟨j, hj⟩ := List.mem_iff_getElem?.mp hx
          have hjlen : j < s.procs.length := (List.getElem?_eq_some_iff.mp hj).1
          have := hdead j hjlen (by rw [enqAt_eq hj]; exact hxe)
            (by rw [hsq]; simp)
          rw [remAt_eq hj] at this
          omega
        · simpa using hxe
      obtain ⟨hna0, ⟨p₀, hp₀, hp₀r, hp₀e, hp₀a⟩, hnamin⟩ :=
        rrNextArr_spec s.procs harr hcand
      by_cases hna : rrNextArr s.procs = -1
      · rw [if_pos hna] at hstep; cases hstep
      · rw [if_neg hna] at hstep
        have htn : s.t < rrNextArr s.procs := by
          have h1 := hIff p₀ hp₀
          rw [hp₀e] at h1
          have h2 : ¬ p₀.arrival ≤ s.t := by
            intro hle
            have := h1.mpr hle
            cases this
          omega
        rw [if_pos htn] at hstep
        injection hstep with hs
        subst hs
        have hfst := enqueue_arrivals_fst s.procs [] (rrNextArr s.procs)
        have hsnd := enqueue_arrivals_snd s.procs [] (rrNextArr s.procs)
        rw [List.nil_append] at hsnd
        refine ⟨?_, ?_, ?_, ?_⟩
        · unfold rrMeasure
          dsimp only
          rw [hfst, hsnd, sumRemainingR_map_mark, hsq]
          have h1 := newIdx_count (t := rrNextArr s.procs) s.procs 0
          have hlenpos : 0 < (newIdx (rrNextArr s.procs) 0 s.procs).length := by
            obtain ⟨j₀, hj₀⟩ := List.mem_iff_getElem?.mp hp₀
            have := newIdx_complete (t := rrNextArr s.procs) s.procs 0 j₀ p₀ hj₀ hp₀e
              (by omega)
            simp only [Nat.zero_add] at this
            exact List.length_pos.mpr (List.ne_nil_of_mem this)
          simp only [List.length_nil]
          omega
        · dsimp only
          rw [hfst, sumBurstR_map_mark]
        · intro x hx
          dsimp only at hx
          rw [hfst] at hx
          obtain ⟨y, hy, rfl⟩ := List.mem_map.mp hx
          exact ⟨y, hy, markArrived_pid _ _⟩
        · intro _
          dsimp only
          rw [hfst, sumRemainingR_map_mark, sumNonIdle_add_segment, if_pos rfl]
          ring
    · rw [hsq] at hstep
      dsimp only at hstep
      have hilen : i < s.procs.length := hqlen i (by rw [hsq]; simp)
      obtain ⟨p, hp⟩ : ∃ p, s.procs[i]? = some p := by
        cases h : s.procs[i]? with
        | none =>
          rw [List.getElem?_eq_none_iff] at h
          omega
        | some p => exact ⟨p, rfl⟩
      have hienq : p.enqueued = true := by
        have := (hqmem i (by rw [hsq]; simp)).2
        rwa [enqAt_eq hp] at this
      have hirem : 0 < p.remaining := by
        have := (hqmem i (by rw [hsq]; simp)).1
        rwa [remAt_eq hp] at this
      have hiarr : p.arrival ≤ s.t := (hIff p (List.mem_iff_getElem?.mpr ⟨i, hp⟩)).mp hienq
      have hr0 : ¬ remAt s.procs i ≤ 0 := by rw [remAt_eq hp]; omega
      rw [if_neg hr0] at hstep
      have hirest : i ∉ rest := by
        have := hnd
        rw [hsq] at this
        exact (List.nodup_cons.mp this).1
      have hrestnd : rest.Nodup := by
        have := hnd
        rw [hsq] at this
        exact (List.nodup_cons.mp this).2
      obtain ⟨c1, c2, c3, c4, c5, c6, c7, c8, c9, c10, c11, c12, c13, c14, c15⟩ :=
        runSlice_spec (min (remAt s.procs i) quantum).toNat s.t s.procs rest p
          hp hienq hiarr (by rw [remAt_eq hp]; omega)
          hInvAll hIff hFresh hrestnd hirest
          (fun j hj => ⟨hqlen j (by rw [hsq]; simp [hj]),
            (hqmem j (by rw [hsq]; simp [hj]))⟩)
          (fun j hjlen henq hnq hji =>
            hdead j hjlen henq (by rw [hsq]; simp; exact ⟨fun h => hji h, hnq⟩))
      set k := (min (remAt s.procs i) quantum).toNat with hk
      have hk1 : 1 ≤ k := by
        rw [hk, remAt_eq hp]
        omega
      have hkrem : (k : Int) ≤ p.remaining := by
        rw [hk, remAt_eq hp]
        omega
      have hpid_i : pidAt s.procs i = p.pid := pidAt_eq hp
      have hpmem : p ∈ s.procs := List.mem_iff_getElem?.mpr ⟨i, hp⟩
      by_cases hfin : remAt (runSlice i k s.t s.procs rest).2.1 i = 0
      · rw [if_pos hfin] at hstep
        injection hstep with hs
        subst hs
        refine ⟨?_, ?_, ?_, ?_⟩
        · unfold rrMeasure
          dsimp only
          rw [sumRemainingR_setComp, c12, notEnqCount_setComp, hsq]
          simp only [List.length_cons]
          have h0 : 0 ≤ sumRemainingR s.procs - (k : Int) := by
            have h := hrem'
            dsimp only at h
            rwa [sumRemainingR_setComp, c12] at h
          omega
        · dsimp only
          rw [sumBurstR_setComp, c13]
        · intro x hx
          dsimp only at hx
          rcases mem_setCompletionAt c3 x hx with hx' | rfl
          · exact c14 x hx'
          · exact ⟨p, hpmem, rfl⟩
        · intro hpid
          dsimp only
          rw [sumRemainingR_setComp, c12, sumNonIdle_add_segment, hpid_i,
            if_neg (hpid p hpmem), c1]
          ring
      · rw [if_neg hfin] at hstep
        injection hstep with hs
        subst hs
        refine ⟨?_, ?_, ?_, ?_⟩
        · unfold rrMeasure
          dsimp only
          rw [c12, hsq]
          simp only [List.length_append, List.length_cons, List.length_nil]
          have h0 : 0 ≤ sumRemainingR s.procs - (k : Int) := by
            have h := hrem'
            dsimp only at h
            rwa [c12] at h
          omega
        · dsimp only
          exact c13
        · intro x hx
          dsimp only at hx
          exact c14 x hx
        · intro hpid
          dsimp only
          rw [c12, sumNonIdle_add_segment, hpid_i, if_neg (hpid p hpmem), c1]
          ring

/-- Under the loop invariant, the rr.c loop body never hits the safety
`break`: while unfinished work remains, the step produces a state. -/
theorem rrStep_progress {quantum : Int} {s : RrState} (hInv : rrInv s)
    (hndone : all_doneR s.procs = false) : ∃ s', rrStep quantum s = some s' := by
  obtain ⟨ht, hnd, hqlen, hqmem, hIff, hFresh, hdead, hInvAll, -, -, -⟩ := hInv
  have harr : ∀ x ∈ s.procs, 0 ≤ x.arrival := fun x hx => (hInvAll x hx).2.2.2.1
  unfold rrStep
  rw [if_neg (by simp [hndone])]
  rcases hsq : s.q with _ | ⟨i, rest⟩
  · have hcand : ∃ x ∈ s.procs, 0 < x.remaining ∧ x.enqueued = false := by
      have hex : ∃ x ∈ s.procs, 0 < x.remaining := by
        by_contra hc
        push_neg at hc
        have : all_doneR s.procs = true :=
          all_doneR_iff.mpr fun p hp => by have := hc p hp; omega
        rw [this] at hndone
        cases hndone
      obtain ⟨x, hx, hxr⟩ := hex
      refine ⟨x, hx, hxr, ?_⟩
      by_cases hxe : x.enqueued = true
      · obtain ⟨j, hj⟩ := List.mem_iff_getElem?.mp hx
        have hjlen : j < s.procs.length := (List.getElem?_eq_some_iff.mp hj).1
        have := hdead j hjlen (by rw [enqAt_eq hj]; exact hxe)
          (by rw [hsq]; simp)
        rw [remAt_eq hj] at this
        omega
      · simpa using hxe
    obtain ⟨hna0, -, -⟩ := rrNextArr_spec s.procs harr hcand
    rw [if_neg (by omega : ¬ rrNextArr s.procs = -1)]
    exact ⟨_, rfl⟩
  · dsimp only
    by_cases hr : remAt s.procs i ≤ 0
    · rw [if_pos hr]
      exact ⟨_, rfl⟩
    · rw [if_neg hr]
      by_cases hfin : remAt
          (runSlice i (min (remAt s.procs i) quantum).toNat s.t s.procs rest).2.1 i = 0
      · rw [if_pos hfin]
        exact ⟨_, rfl⟩
      · rw [if_neg hfin]
        exact ⟨_, rfl⟩

theorem rr_term_aux {quantum : Int} (hq : 0 < quantum) :
    ∀ (n : Nat) (s : RrState), rrInv s → rrMeasure s ≤ n →
      ∃ f, all_doneR (rrRun quantum f s).procs = true := by
  intro n
  induction n with
  | zero =>
    intro s hInv hm
    by_cases hdone : all_doneR s.procs = true
    · exact ⟨0, hdone⟩
    · obtain ⟨s', hs'⟩ := rrStep_progress hInv (by simpa using hdone)
      have hdec := (rrStep_accounting hq hInv hs').1
      omega
  | succ m ih =>
    intro s hInv hm
    by_cases hdone : all_doneR s.procs = true
    · exact ⟨0, hdone⟩
    · obtain ⟨s', hs'⟩ := rrStep_progress hInv (by simpa using hdone)
      have hdec := (rrStep_accounting hq hInv hs').1
      have hInv' := rrInv_step hq hInv hs'
      obtain ⟨f, hf⟩ := ih s' hInv' (by omega)
      exact ⟨f + 1, by simpa [rrRun, hs'] using hf⟩

/-- The rr.c main loop finishes every process on every valid input. -/
theorem rr_terminates {quantum : Int} (hq : 0 < quantum) {ps : List RProcess}
    (hv : validTableR ps) :
    ∃ f, all_doneR (rrRun quantum f (rrInit ps)).procs = true :=
  rr_term_aux hq (rrMeasure (rrInit ps)) (rrInit ps) (rrInv_init hv) (le_refl _)

theorem countP_le_of_sub {α : Type} {pr qr : α → Bool} :
    ∀ (l : List α), (∀ x ∈ l, qr x = true → pr x = true) → l.countP qr ≤ l.countP pr := by
  intro l
  induction l with
  | nil => intro _; simp
  | cons hd tl ih =>
    intro h
    have htl := ih fun x hx => h x (by simp [hx])
    simp only [List.countP_cons]
    by_cases hq : qr hd = true
    · rw [h hd (by simp) hq, hq]
      omega
    · have : qr hd = false := by simpa using hq
      rw [this]
      simp only [Bool.false_eq_true, if_false]
      split <;> omega

theorem countP_lt_of_mem {α : Type} {pr qr : α → Bool} :
    ∀ (l : List α), (∀ x ∈ l, qr x = true → pr x = true) →
      ∀ x₀ ∈ l, pr x₀ = true → qr x₀ = false → l.countP qr < l.countP pr := by
  intro l
  induction l with
  | nil => intro _ x₀ h; simp at h
  | cons hd tl ih =>
    intro h x₀ hx₀ hp hq
    simp only [List.countP_cons]
    rcases List.mem_cons.mp hx₀ with rfl | hx₀'
    · rw [hp, hq]
      have := countP_le_of_sub tl fun x hx => h x (by simp [hx])
      simp only [Bool.false_eq_true, if_false, if_true]
      simp
      omega
    · have := ih (fun x hx => h x (by simp [hx])) x₀ hx₀' hp hq
      by_cases hqh : qr hd = true
      · rw [hqh, h hd (by simp) hqh]
        omega
      · have hqh' : qr hd = false := by simpa using hqh
        rw [hqh']
        simp only [Bool.false_eq_true, if_false]
        split <;> omega

theorem countP_pointwise_le {α : Type} {pr qr : α → Bool} :
    ∀ (l l' : List α), l.length = l'.length →
      (∀ (j : Nat) (x y : α), l[j]? = some x → l'[j]? = some y →
        qr y = true → pr x = true) →
      l'.countP qr ≤ l.countP pr := by
  intro l
  induction l with
  | nil =>
    intro l' hlen _
    have : l' = [] := by
      cases l' with
      | nil => rfl
      | cons a b => simp at hlen
    subst this
    simp
  | cons hd tl ih =>
    intro l' hlen hpt
    cases l' with
    | nil => simp at hlen
    | cons hd' tl' =>
      simp only [List.length_cons] at hlen
      have htl := ih tl' (by omega) fun j x y hx hy =>
        hpt (j + 1) x y (by simpa using hx) (by simpa using hy)
      have hhd := hpt 0 hd hd' (by simp) (by simp)
      simp only [List.countP_cons]
      by_cases hq : qr hd' = true
      · rw [hq, hhd hq]
        omega
      · have : qr hd' = false := by simpa using hq
        rw [this]
        simp only [Bool.false_eq_true, if_false]
        split <;> omega

/-- Measure decrease and arrival/burst preservation for one sjf.c
step. -/
theorem sjfStep_measure {s s' : SjfState} (hInv : sjfInv s)
    (hstep : sjfStep s = some s') :
    sjfMeasure s' < sjfMeasure s ∧
      (∀ x ∈ s'.procs, ∃ y ∈ s.procs, x.arrival = y.arrival ∧ x.burst = y.burst) := by
  have hInv' := sjfInv_step hInv hstep
  have hrem' : 0 ≤ sumRemaining s'.procs := by
    have := hInv'.2.1
    unfold sumRemaining
    apply List.sum_nonneg
    intro x hx
    obtain ⟨y, hy, rfl⟩ := List.mem_map.mp hx
    exact (this y hy).1
  obtain ⟨ht, hprocs, -, -, -⟩ := hInv
  unfold sjfStep at hstep
  by_cases hdone : all_done s.procs
  · rw [if_pos hdone] at hstep; cases hstep
  · rw [if_neg hdone] at hstep
    rcases hp : srtfPick s.procs s.t with _ | ⟨i, p⟩
    · rw [hp] at hstep
      by_cases hna : sjfNextArr s.procs s.t = INT_MAX
      · rw [if_pos hna] at hstep; cases hstep
      · rw [if_neg hna] at hstep
        injection hstep with hs
        subst hs
        obtain ⟨w1, hmin, -⟩ := sjfNextArr_spec s.procs s.t
        rcases w1 with h | ⟨p₀, hp₀, hr₀, ha₀, he₀⟩
        · exact absurd h hna
        refine ⟨?_, fun x hx => ⟨x, hx, rfl, rfl⟩⟩
        unfold sjfMeasure futureCount
        dsimp only
        have hlt : (s.procs.countP fun p =>
            decide (0 < p.remaining ∧ sjfNextArr s.procs s.t < p.arrival)) <
            s.procs.countP fun p => decide (0 < p.remaining ∧ s.t < p.arrival) := by
          apply countP_lt_of_mem s.procs _ p₀ hp₀
          · rw [decide_eq_true_eq]
            exact ⟨hr₀, ha₀⟩
          · rw [decide_eq_false_iff_not]
            intro hcon
            omega
          · intro x hx hqx
            rw [decide_eq_true_eq] at hqx
            rw [decide_eq_true_eq]
            exact ⟨hqx.1, by omega⟩
        omega
    · rw [hp] at hstep
      simp only [Option.some.injEq] at hstep
      subst hstep
      obtain ⟨hget, hel, -⟩ := srtfPick_elig hp
      have hilen : i < s.procs.length := (List.getElem?_eq_some_iff.mp hget).1
      refine ⟨?_, ?_⟩
      · unfold sjfMeasure futureCount
        dsimp only
        have h1 := sumRemaining_set (runPicked p s.t) hget
        rw [runPicked_remaining] at h1
        have h2 : ((s.procs.set i (runPicked p s.t)).countP fun x =>
            decide (0 < x.remaining ∧ s.t + 1 < x.arrival)) ≤
            s.procs.countP fun x => decide (0 < x.remaining ∧ s.t < x.arrival) := by
          apply countP_pointwise_le _ _ (by simp)
          intro j x y hx hy hqy
          rw [decide_eq_true_eq] at hqy
          rw [decide_eq_true_eq]
          by_cases hji : j = i
          · rw [hji] at hx hy
            rw [hget] at hx
            injection hx with hx
            have hy' : (s.procs.set i (runPicked p s.t))[i]? =
                some (runPicked p s.t) := by
              simp [List.getElem?_set, hilen]
            rw [hy'] at hy
            injection hy with hy
            rw [← hy, runPicked_remaining, runPicked_arrival] at hqy
            rw [← hx]
            exact ⟨by omega, by omega⟩
          · rw [List.getElem?_set_ne (by omega)] at hy
            rw [hx] at hy
            injection hy with hy
            subst hy
            exact ⟨hqy.1, by omega⟩
        have h3 : 0 ≤ sumRemaining (s.procs.set i (runPicked p s.t)) := by
          have := hrem'
          dsimp only at this
          exact this
        omega
      · intro x hx
        rcases List.mem_or_eq_of_mem_set hx with hx' | rfl
        · exact ⟨x, hx', rfl, rfl⟩
        · exact ⟨p, List.mem_iff_getElem?.mpr ⟨i, hget⟩,
            runPicked_arrival p s.t, runPicked_burst p s.t⟩

/-- With arrivals and bursts below the `INT_MAX` sentinel, the sjf.c
loop body never hits the safety break while work remains. -/
theorem sjfStep_progress {s : SjfState} (hInv : sjfInv s)
    (hb : ∀ x ∈ s.procs, x.arrival < INT_MAX ∧ x.burst < INT_MAX)
    (hndone : all_done s.procs = false) : ∃ s', sjfStep s = some s' := by
  obtain ⟨ht, hprocs, -, -, -⟩ := hInv
  unfold sjfStep
  rw [if_neg (by simp [hndone])]
  rcases hp : srtfPick s.procs s.t with _ | ⟨i, p⟩
  · have hex : ∃ x ∈ s.procs, 0 < x.remaining := by
      by_contra hc
      push_neg at hc
      have : all_done s.procs = true :=
        all_done_iff.mpr fun p hp => by have := hc p hp; omega
      rw [this] at hndone
      cases hndone
    obtain ⟨x, hx, hxr⟩ := hex
    have hxb := hb x hx
    have hxI := hprocs x hx
    unfold procInv at hxI
    have hxarr : s.t < x.arrival := by
      by_contra hle
      push_neg at hle
      exact srtfPick_some ⟨x, hx, ⟨hle, hxr⟩, by omega⟩ hp
    obtain ⟨-, hmin, -⟩ := sjfNextArr_spec s.procs s.t
    have hle := hmin x hx hxr hxarr
    rw [if_neg (by omega : ¬ sjfNextArr s.procs s.t = INT_MAX)]
    exact ⟨_, rfl⟩
  · exact ⟨_, rfl⟩

theorem sjf_term_aux :
    ∀ (n : Nat) (s : SjfState), sjfInv s →
      (∀ x ∈ s.procs, x.arrival < INT_MAX ∧ x.burst < INT_MAX) →
      sjfMeasure s ≤ n → ∃ f, all_done (sjfRun f s).procs = true := by
  intro n
  induction n with
  | zero =>
    intro s hInv hb hm
    by_cases hdone : all_done s.procs = true
    · exact ⟨0, hdone⟩
    · obtain ⟨s', hs'⟩ := sjfStep_progress hInv hb (by simpa using hdone)
      have hdec := (sjfStep_measure hInv hs').1
      omega
  | succ m ih =>
    intro s hInv hb hm
    by_cases hdone : all_done s.procs = true
    · exact ⟨0, hdone⟩
    · obtain ⟨s', hs'⟩ := sjfStep_progress hInv hb (by simpa using hdone)
      obtain ⟨hdec, hpres⟩ := sjfStep_measure hInv hs'
      have hInv' := sjfInv_step hInv hs'
      have hb' : ∀ x ∈ s'.procs, x.arrival < INT_MAX ∧ x.burst < INT_MAX := by
        intro x hx
        obtain ⟨y, hy, ha, hbb⟩ := hpres x hx
        rw [ha, hbb]
        exact hb y hy
      obtain ⟨f, hf⟩ := ih s' hInv' hb' (by omega)
      exact ⟨f + 1, by simpa [sjfRun, hs'] using hf⟩

/-- The sjf.c main loop finishes every process on every valid input
whose arrivals and bursts stay below `INT_MAX`. -/
theorem sjf_terminates {ps : List Process} (hv : validTable ps)
    (hbnd : boundedTable ps) :
    ∃ f, all_done (sjfRun f (sjfInit ps)).procs = true :=
  sjf_term_aux (sjfMeasure (sjfInit ps)) (sjfInit ps) (sjfInv_init hv) hbnd (le_refl _)

theorem chain_append_single :
    ∀ (M : List Segment) (a b : Int) (s : Segment),
      chain a (M ++ [s]) b ↔ (chain a M s.start ∧ s.start < s.stop ∧ s.stop = b) := by
  intro M
  induction M with
  | nil =>
    intro a b s
    simp only [List.nil_append]
    unfold chain
    constructor
    · rintro ⟨h1, h2, h3⟩
      exact ⟨h1.symm, by omega, by simpa [chain] using h3⟩
    · rintro ⟨h1, h2, h3⟩
      exact ⟨h1.symm, by omega, by simpa [chain] using h3⟩
  | cons m M' ih =>
    intro a b s
    simp only [List.cons_append]
    unfold chain
    rw [ih]
    tauto

theorem rchain_iff_chain :
    ∀ (L : List Segment) (a b : Int), rchain a L b ↔ chain a L.reverse b := by
  intro L
  induction L with
  | nil => intro a b; simp [rchain, chain]
  | cons s r ih =>
    intro a b
    simp only [List.reverse_cons]
    rw [chain_append_single]
    unfold rchain
    rw [ih]
    constructor
    · rintro ⟨h1, h2, h3⟩
      exact ⟨h3, by omega, h1⟩
    · rintro ⟨h1, h2, h3⟩
      exact ⟨h3, by omega, h1⟩

theorem chain_le : ∀ (L : List Segment) {a b : Int}, chain a L b → a ≤ b := by
  intro L
  induction L with
  | nil => intro a b h; exact le_of_eq h
  | cons s r ih =>
    rintro a b ⟨h1, h2, h3⟩
    have := ih h3
    omega

theorem chain_bounds :
    ∀ (L : List Segment) {a b : Int}, chain a L b →
      ∀ s ∈ L, a ≤ s.start ∧ s.start < s.stop ∧ s.stop ≤ b := by
  intro L
  induction L with
  | nil => intro a b _ s h; simp at h
  | cons m r ih =>
    rintro a b ⟨h1, h2, h3⟩ s hs
    rcases List.mem_cons.mp hs with rfl | hs'
    · have := chain_le r h3
      omega
    · have := ih h3 s hs'
      omega

theorem chain_nonoverlap :
    ∀ (L : List Segment) {a b : Int}, chain a L b →
      L.Pairwise (fun x y => x.stop ≤ y.start) := by
  intro L
  induction L with
  | nil => intro a b _; exact List.Pairwise.nil
  | cons m r ih =>
    rintro a b ⟨h1, h2, h3⟩
    exact List.Pairwise.cons (fun y hy => (chain_bounds r h3 y hy).1) (ih h3)

theorem chain_sorted :
    ∀ (L : List Segment) {a b : Int}, chain a L b →
      L.Pairwise (fun x y => x.start ≤ y.start) := by
  intro L
  induction L with
  | nil => intro a b _; exact List.Pairwise.nil
  | cons m r ih =>
    rintro a b ⟨h1, h2, h3⟩
    refine List.Pairwise.cons (fun y hy => ?_) (ih h3)
    have := (chain_bounds r h3 y hy).1
    omega

theorem rr_sum_run {quantum : Int} (hq : 0 < quantum) :
    ∀ (f : Nat) (s : RrState), rrInv s → (∀ x ∈ s.procs, x.pid ≠ -1) →
      sumBurstR (rrRun quantum f s).procs = sumBurstR s.procs ∧
        (∀ x ∈ (rrRun quantum f s).procs, x.pid ≠ -1) ∧
        sumNonIdle (rrRun quantum f s).segs + sumRemainingR (rrRun quantum f s).procs =
          sumNonIdle s.segs + sumRemainingR s.procs := by
  intro f
  induction f with
  | zero => intro s _ hpid; exact ⟨rfl, hpid, rfl⟩
  | succ k ih =>
    intro s hInv hpid
    rcases hs : rrStep quantum s with _ | s'
    · have heq : rrRun quantum (k + 1) s = s := by simp [rrRun, hs]
      rw [heq]
      exact ⟨rfl, hpid, rfl⟩
    · obtain ⟨-, b1, b2, b3⟩ := rrStep_accounting hq hInv hs
      have hInv' := rrInv_step hq hInv hs
      have hpid' : ∀ x ∈ s'.procs, x.pid ≠ -1 := by
        intro x hx
        obtain ⟨y, hy, hxy⟩ := b2 x hx
        rw [hxy]
        exact hpid y hy
      obtain ⟨d1, d2, d3⟩ := ih s' hInv' hpid'
      have heq : rrRun quantum (k + 1) s = rrRun quantum k s' := by simp [rrRun, hs]
      rw [heq]
      exact ⟨by rw [d1, b1], d2, by rw [d3, b3 hpid]⟩

theorem sumRemaining_zero {ps : List Process} (h : ∀ p ∈ ps, p.remaining = 0) :
    sumRemaining ps = 0 := by
  unfold sumRemaining
  apply List.sum_eq_zero
  intro x hx
  obtain ⟨y, hy, rfl⟩ := List.mem_map.mp hx
  exact h y hy

theorem sumRemainingR_zero {ps : List RProcess} (h : ∀ p ∈ ps, p.remaining = 0) :
    sumRemainingR ps = 0 := by
  unfold sumRemainingR
  apply List.sum_eq_zero
  intro x hx
  obtain ⟨y, hy, rfl⟩ := List.mem_map.mp hx
  exact h y hy

theorem adjDistinct_iff_chain' :
    ∀ (L : List Segment), adjDistinct L ↔ L.Chain' fun a b => a.pid ≠ b.pid := by
  intro L
  match L with
  | [] => simp [adjDistinct]
  | [a] => simp [adjDistinct]
  | a :: b :: r =>
    rw [List.chain'_cons]
    unfold adjDistinct
    rw [adjDistinct_iff_chain' (b :: r)]

/-- Adjacent-distinctness transfers to the printed (reversed) order. -/
theorem adjDistinct_reverse {L : List Segment} (h : adjDistinct L) :
    adjDistinct L.reverse := by
  rw [adjDistinct_iff_chain'] at *
  rw [List.chain'_reverse]
  exact List.Chain'.imp (fun a b hab => fun e => hab e.symm) h

/-- C1: for the Round-Robin simulator with quantum 2 and processes
P1(0,4), P2(1,3), P3(3,2), the timeline is exactly
[0-2]P1, [2-4]P2, [4-6]P1, [6-8]P3, [8-9]P2, the waiting times are
P1=2, P2=5, P3=3, the average waiting time is 10/3 (displayed 3.33) and
the average turnaround time is 19/3 (displayed 6.33). -/
theorem c1_round_robin_scenario_a :
    (rrRun 2 20 (rrInit scenarioA)).segs.reverse =
        [⟨1, 0, 2⟩, ⟨2, 2, 4⟩, ⟨1, 4, 6⟩, ⟨3, 6, 8⟩, ⟨2, 8, 9⟩] ∧
      (rrRun 2 20 (rrInit scenarioA)).procs.map waitingOfR = [2, 5, 3] ∧
      all_doneR (rrRun 2 20 (rrInit scenarioA)).procs = true ∧
      avgWaitingR (rrRun 2 20 (rrInit scenarioA)).procs = 10 / 3 ∧
      |avgWaitingR (rrRun 2 20 (rrInit scenarioA)).procs - 333 / 100| ≤ 1 / 200 ∧
      avgTurnaroundR (rrRun 2 20 (rrInit scenarioA)).procs = 19 / 3 ∧
      |avgTurnaroundR (rrRun 2 20 (rrInit scenarioA)).procs - 633 / 100| ≤ 1 / 200 := by
  have h1 : sumWaitingR (rrRun 2 20 (rrInit scenarioA)).procs = 10 := by decide
  have h2 : sumTurnaroundR (rrRun 2 20 (rrInit scenarioA)).procs = 19 := by decide
  have h3 : (rrRun 2 20 (rrInit scenarioA)).procs.length = 3 := by decide
  refine ⟨by decide, by decide, by decide, ?_, ?_, ?_, ?_⟩ <;>
    simp only [avgWaitingR, avgTurnaroundR, h1, h2, h3] <;> norm_num [abs_le]

/-- C2, counterexample: on scenario B the SRTF simulator computes the
waiting times [9, 0, 15, 2], not [9, 1, 15, 0] as claimed (the claim's
own numbers average to 6.25, not the claimed 6.50). -/
theorem c2_counterexample :
    (sjfRun 40 (sjfInit scenarioB)).procs.map waitingOf = [9, 0, 15, 2] ∧
      ¬ (sjfRun 40 (sjfInit scenarioB)).procs.map waitingOf = [9, 1, 15, 0] := by
  decide

/-- C2, amended: on scenario B the computed waiting times are P1=9,
P2=0, P3=15, P4=2 and the average waiting time is 13/2 (displayed
6.50). -/
theorem c2_srtf_scenario_b :
    (sjfRun 40 (sjfInit scenarioB)).procs.map waitingOf = [9, 0, 15, 2] ∧
      all_done (sjfRun 40 (sjfInit scenarioB)).procs = true ∧
      avgWaiting (sjfRun 40 (sjfInit scenarioB)).procs = 13 / 2 ∧
      |avgWaiting (sjfRun 40 (sjfInit scenarioB)).procs - 650 / 100| ≤ 1 / 200 := by
  have h1 : sumWaiting (sjfRun 40 (sjfInit scenarioB)).procs = 26 := by decide
  have h3 : (sjfRun 40 (sjfInit scenarioB)).procs.length = 4 := by decide
  refine ⟨by decide, by decide, ?_, ?_⟩ <;>
    simp only [avgWaiting, h1, h3] <;> norm_num [abs_le]

/-- C3, counterexample: a decision point with an eligible process at
which the sjf.c scan selects nothing — a single arrived, unfinished
process whose `remaining` equals the `INT_MAX` sentinel is never
picked (sjf.c line 111 compares with `<` against `best_rem = INT_MAX`
and the tie branch requires `pick != -1`). -/
theorem c3_counterexample :
    elig 0 (initProc 1 0 INT_MAX) ∧ srtfPick [initProc 1 0 INT_MAX] 0 = none := by
  decide

/-- C9, counterexample: on the valid input P1(arrival 0, burst INT_MAX)
the sjf.c loop exits at once via the `next_arr == INT_MAX` safety break
with the process never scheduled: its `remaining` never reaches 0 in any
number of iterations. -/
theorem c9_counterexample :
    sjfStep (sjfInit [initProc 1 0 INT_MAX]) = none ∧
      all_done (sjfInit [initProc 1 0 INT_MAX]).procs = false ∧
      all_done (sjfRun 1000000 (sjfInit [initProc 1 0 INT_MAX])).procs = false := by
  decide

/-- C4, counterexample: the pid is never validated, so a process with
pid `-1` collides with the IDLE sentinel: on the valid input
P(-1, arrival 0, burst 1) the completed SRTF run produces a timeline
whose non-IDLE segment durations sum to 0 while the bursts sum to 1. -/
theorem c4_counterexample :
    validTable [initProc (-1) 0 1] ∧
      all_done (sjfRun 2 (sjfInit [initProc (-1) 0 1])).procs = true ∧
      sumNonIdle (sjfRun 2 (sjfInit [initProc (-1) 0 1])).segs = 0 ∧
      sumBurst (sjfRun 2 (sjfInit [initProc (-1) 0 1])).procs = 1 := by
  refine ⟨⟨by decide, ?_⟩, by decide, by decide, by decide⟩
  intro p hp
  simp only [List.mem_singleton] at hp
  subst hp
  decide

theorem rrInit_procs (ps : List RProcess) :
    (rrInit ps).procs = ps.map (markArrived (rrInit ps).t) :=
  enqueue_arrivals_fst ps [] ((rrInit ps).t)

theorem rrInit_sumNonIdle (ps : List RProcess) : sumNonIdle (rrInit ps).segs = 0 := by
  have h : (rrInit ps).segs =
      if 0 < earliestArrival ps then add_segment [] (-1) 0 (earliestArrival ps)
      else [] := rfl
  rw [h]
  split
  · rw [sumNonIdle_add_segment]
    simp [sumNonIdle]
  · rfl

/-- C4 (amended): for every valid input whose pids avoid the IDLE
sentinel `-1`, in both simulators, a completed run's non-IDLE segment
durations sum to the total burst.  (Without the pid restriction the
claim fails: see the counterexample with pid `-1`.) -/
theorem c4_sum_non_idle :
    (∀ (ps : List Process) (f : Nat), validTable ps → noIdlePid ps →
        all_done (sjfRun f (sjfInit ps)).procs = true →
        sumNonIdle (sjfRun f (sjfInit ps)).segs = sumBurst ps) ∧
      ∀ (ps : List RProcess) (quantum : Int) (f : Nat), validTableR ps →
        noIdlePidR ps → 0 < quantum →
        all_doneR (rrRun quantum f (rrInit ps)).procs = true →
        sumNonIdle (rrRun quantum f (rrInit ps)).segs = sumBurstR ps := by
  constructor
  · intro ps f hv hpid hdone
    obtain ⟨-, -, d3⟩ := sjf_sum_run f (sjfInit ps) hpid
    have hInv := sjfInv_run f (sjfInit ps) (sjfInv_init hv)
    unfold sjfInv at hInv
    have hz : sumRemaining (sjfRun f (sjfInit ps)).procs = 0 := by
      apply sumRemaining_zero
      intro p hp
      have h1 := (hInv.2.1 p hp).1
      have h2 := all_done_iff.mp hdone p hp
      omega
    have hinit : sumRemaining ps = sumBurst ps := by
      unfold sumRemaining sumBurst
      congr 1
      apply List.map_congr_left
      intro p hp
      exact (hv.2 p hp).2.2.1
    have hd : sumNonIdle (sjfRun f (sjfInit ps)).segs +
        sumRemaining (sjfRun f (sjfInit ps)).procs = 0 + sumRemaining ps := d3
    omega
  · intro ps quantum f hv hpid hq hdone
    have hpid0 : ∀ x ∈ (rrInit ps).procs, x.pid ≠ -1 := by
      intro x hx
      rw [rrInit_procs] at hx
      obtain ⟨y, hy, rfl⟩ := List.mem_map.mp hx
      rw [markArrived_pid]
      exact hpid y hy
    obtain ⟨-, -, d3⟩ := rr_sum_run hq f (rrInit ps) (rrInv_init hv) hpid0
    have hInv := rrInv_run quantum hq f (rrInit ps) (rrInv_init hv)
    unfold rrInv at hInv
    have hz : sumRemainingR (rrRun quantum f (rrInit ps)).procs = 0 := by
      apply sumRemainingR_zero
      intro p hp
      have h1 := (hInv.2.2.2.2.2.2.2.1 p hp).1
      have h2 := all_doneR_iff.mp hdone p hp
      omega
    have hinit : sumRemainingR ps = sumBurstR ps := by
      unfold sumRemainingR sumBurstR
      congr 1
      apply List.map_congr_left
      intro p hp
      exact (hv.2 p hp).2.2.1
    have hseg0 := rrInit_sumNonIdle ps
    have hrem0 : sumRemainingR (rrInit ps).procs = sumRemainingR ps := by
      rw [rrInit_procs, sumRemainingR_map_mark]
    rw [hseg0, hrem0] at d3
    omega

theorem c4_sum_non_idle_witness :
    validTable [initProc 1 0 2] ∧ noIdlePid [initProc 1 0 2] ∧
      all_done (sjfRun 5 (sjfInit [initProc 1 0 2])).procs = true ∧
      sumNonIdle (sjfRun 5 (sjfInit [initProc 1 0 2])).segs =
        sumBurst [initProc 1 0 2] ∧
      validTableR [initRProc 1 0 2] ∧ noIdlePidR [initRProc 1 0 2] ∧
      (0 : Int) < 1 ∧
      all_doneR (rrRun 1 5 (rrInit [initRProc 1 0 2])).procs = true ∧
      sumNonIdle (rrRun 1 5 (rrInit [initRProc 1 0 2])).segs =
        sumBurstR [initRProc 1 0 2] :=
  ⟨by decide, by decide, by decide,
    c4_sum_non_idle.1 [initProc 1 0 2] 5 (by decide) (by decide) (by decide),
    by decide, by decide, by decide, by decide,
    c4_sum_non_idle.2 [initRProc 1 0 2] 1 5 (by decide) (by decide) (by decide)
      (by decide)⟩

/-- C5: for every valid input, in both simulators, the printed segment
list (the reverse of the stored most-recent-first list) of a completed
run partitions `[0, max completion)` exactly — so it is sorted by start,
mutually non-overlapping, and gap-free (any idle time is itself a
recorded IDLE segment). -/
theorem c5_timeline_partition :
    (∀ (ps : List Process) (f : Nat), validTable ps →
        all_done (sjfRun f (sjfInit ps)).procs = true →
        chain 0 (sjfRun f (sjfInit ps)).segs.reverse
            (maxCompletion (sjfRun f (sjfInit ps)).procs) ∧
          List.Pairwise (fun x y => x.start ≤ y.start)
            (sjfRun f (sjfInit ps)).segs.reverse ∧
          List.Pairwise (fun x y => x.stop ≤ y.start)
            (sjfRun f (sjfInit ps)).segs.reverse) ∧
      ∀ (ps : List RProcess) (quantum : Int) (f : Nat), validTableR ps →
        0 < quantum →
        all_doneR (rrRun quantum f (rrInit ps)).procs = true →
        chain 0 (rrRun quantum f (rrInit ps)).segs.reverse
            (maxCompletionR (rrRun quantum f (rrInit ps)).procs) ∧
          List.Pairwise (fun x y => x.start ≤ y.start)
            (rrRun quantum f (rrInit ps)).segs.reverse ∧
          List.Pairwise (fun x y => x.stop ≤ y.start)
            (rrRun quantum f (rrInit ps)).segs.reverse := by
  constructor
  · intro ps f hv hdone
    have hInv := sjfInv_run f (sjfInit ps) (sjfInv_init hv)
    unfold sjfInv at hInv
    have hch : chain 0 (sjfRun f (sjfInit ps)).segs.reverse
        (maxCompletion (sjfRun f (sjfInit ps)).procs) := by
      rw [hInv.2.2.2.2 hdone]
      exact (rchain_iff_chain _ _ _).mp hInv.2.2.1
    exact ⟨hch, chain_sorted _ hch, chain_nonoverlap _ hch⟩
  · intro ps quantum f hv hq hdone
    have hInv := rrInv_run quantum hq f (rrInit ps) (rrInv_init hv)
    unfold rrInv at hInv
    have hch : chain 0 (rrRun quantum f (rrInit ps)).segs.reverse
        (maxCompletionR (rrRun quantum f (rrInit ps)).procs) := by
      rw [hInv.2.2.2.2.2.2.2.2.2.2 hdone]
      exact (rchain_iff_chain _ _ _).mp hInv.2.2.2.2.2.2.2.2.1
    exact ⟨hch, chain_sorted _ hch, chain_nonoverlap _ hch⟩

theorem c5_timeline_partition_witness :
    validTable [initProc 1 0 2] ∧
      all_done (sjfRun 5 (sjfInit [initProc 1 0 2])).procs = true ∧
      (chain 0 (sjfRun 5 (sjfInit [initProc 1 0 2])).segs.reverse
          (maxCompletion (sjfRun 5 (sjfInit [initProc 1 0 2])).procs) ∧
        List.Pairwise (fun x y => x.start ≤ y.start)
          (sjfRun 5 (sjfInit [initProc 1 0 2])).segs.reverse ∧
        List.Pairwise (fun x y => x.stop ≤ y.start)
          (sjfRun 5 (sjfInit [initProc 1 0 2])).segs.reverse) ∧
      validTableR [initRProc 1 0 2] ∧ (0 : Int) < 1 ∧
      all_doneR (rrRun 1 5 (rrInit [initRProc 1 0 2])).procs = true ∧
      (chain 0 (rrRun 1 5 (rrInit [initRProc 1 0 2])).segs.reverse
          (maxCompletionR (rrRun 1 5 (rrInit [initRProc 1 0 2])).procs) ∧
        List.Pairwise (fun x y => x.start ≤ y.start)
          (rrRun 1 5 (rrInit [initRProc 1 0 2])).segs.reverse ∧
        List.Pairwise (fun x y => x.stop ≤ y.start)
          (rrRun 1 5 (rrInit [initRProc 1 0 2])).segs.reverse) :=
  ⟨by decide, by decide,
    c5_timeline_partition.1 [initProc 1 0 2] 5 (by decide) (by decide),
    by decide, by decide, by decide,
    c5_timeline_partition.2 [initRProc 1 0 2] 1 5 (by decide) (by decide)
      (by decide)⟩

/-- C6: the recorder `add_segment` is a no-op when `start = stop`;
when the most recent segment has the same owner and touches
(`prev.stop = start`, `start ≠ stop`) it is extended in place rather
than appended; and consequently every segment list either simulator
produces (here in printed order) has no two adjacent segments with the
same owner. -/
theorem c6_recorder_contract :
    (∀ (segs : List Segment) (pid x : Int), add_segment segs pid x x = segs) ∧
      (∀ (prev : Segment) (rest : List Segment) (pid x u : Int),
        prev.pid = pid → prev.stop = x → x ≠ u →
        add_segment (prev :: rest) pid x u = ⟨prev.pid, prev.start, u⟩ :: rest) ∧
      (∀ (ps : List Process) (f : Nat), validTable ps →
        adjDistinct (sjfRun f (sjfInit ps)).segs.reverse) ∧
      ∀ (ps : List RProcess) (quantum : Int) (f : Nat), validTableR ps →
        0 < quantum → adjDistinct (rrRun quantum f (rrInit ps)).segs.reverse := by
  refine ⟨?_, ?_, ?_, ?_⟩
  · intro segs pid x
    unfold add_segment
    rw [if_pos rfl]
  · intro prev rest pid x u h1 h2 h3
    unfold add_segment
    rw [if_neg h3]
    show (if prev.pid = pid ∧ prev.stop = x then _ else _) = _
    rw [if_pos ⟨h1, h2⟩]
  · intro ps f hv
    have hInv := sjfInv_run f (sjfInit ps) (sjfInv_init hv)
    unfold sjfInv at hInv
    exact adjDistinct_reverse hInv.2.2.2.1
  · intro ps quantum f hv hq
    have hInv := rrInv_run quantum hq f (rrInit ps) (rrInv_init hv)
    unfold rrInv at hInv
    exact adjDistinct_reverse hInv.2.2.2.2.2.2.2.2.2.1

set_option maxHeartbeats 1000000 in
theorem c6_recorder_contract_witness :
    ((⟨7, 0, 3⟩ : Segment).pid = 7 ∧ (⟨7, 0, 3⟩ : Segment).stop = 3 ∧
        (3 : Int) ≠ 5 ∧
        add_segment [⟨7, 0, 3⟩] 7 3 5 = [⟨7, 0, 5⟩]) ∧
      (validTable [initProc 1 0 2] ∧
        adjDistinct (sjfRun 5 (sjfInit [initProc 1 0 2])).segs.reverse) ∧
      validTableR [initRProc 1 0 2] ∧ (0 : Int) < 1 ∧
        adjDistinct (rrRun 1 5 (rrInit [initRProc 1 0 2])).segs.reverse := by
  refine ⟨⟨by decide, by decide, by decide, ?_⟩, ⟨by decide, ?_⟩,
    by decide, by decide, ?_⟩
  · exact c6_recorder_contract.2.1 ⟨7, 0, 3⟩ [] 7 3 5 (by decide) (by decide)
      (by decide)
  · exact c6_recorder_contract.2.2.1 [initProc 1 0 2] 5 (by decide)
  · have hv : validTableR [initRProc 1 0 2] := by decide
    have hq : (0 : Int) < 1 := by decide
    have hc := c6_recorder_contract.2.2.2 [initRProc 1 0 2] 1 5 hv hq
    exact hc

/-- C7: for every valid input and completed run, in both simulators,
each record satisfies `turnaround = waiting + burst`,
`turnaround = completion - arrival`, `burst ≤ turnaround` and
`0 ≤ waiting`. -/
theorem c7_metric_identities :
    (∀ (ps : List Process) (f : Nat), validTable ps →
        all_done (sjfRun f (sjfInit ps)).procs = true →
        ∀ p ∈ (sjfRun f (sjfInit ps)).procs,
          turnaroundOf p = waitingOf p + p.burst ∧
            turnaroundOf p = p.completion - p.arrival ∧
            p.burst ≤ turnaroundOf p ∧ 0 ≤ waitingOf p) ∧
      ∀ (ps : List RProcess) (quantum : Int) (f : Nat), validTableR ps →
        0 < quantum →
        all_doneR (rrRun quantum f (rrInit ps)).procs = true →
        ∀ p ∈ (rrRun quantum f (rrInit ps)).procs,
          turnaroundOfR p = waitingOfR p + p.burst ∧
            turnaroundOfR p = p.completion - p.arrival ∧
            p.burst ≤ turnaroundOfR p ∧ 0 ≤ waitingOfR p := by
  constructor
  · intro ps f hv hdone p hp
    have hInv := sjfInv_run f (sjfInit ps) (sjfInv_init hv)
    unfold sjfInv at hInv
    have hpInv := hInv.2.1 p hp
    unfold procInv at hpInv
    have hrem := all_done_iff.mp hdone p hp
    have hc : p.arrival + p.burst ≤ p.completion := by
      rcases hpInv.2.2.2.2.2 with h | h
      · omega
      · exact h.2.1
    unfold waitingOf turnaroundOf
    refine ⟨by ring, rfl, by omega, by omega⟩
  · intro ps quantum f hv hq hdone p hp
    have hInv := rrInv_run quantum hq f (rrInit ps) (rrInv_init hv)
    unfold rrInv at hInv
    have hpInv := hInv.2.2.2.2.2.2.2.1 p hp
    unfold rprocInv at hpInv
    have hrem := all_doneR_iff.mp hdone p hp
    have hc : p.arrival + p.burst ≤ p.completion := by
      rcases hpInv.2.2.2.2.2 with h | h
      · omega
      · exact h.2.1
    unfold waitingOfR turnaroundOfR
    refine ⟨by ring, rfl, by omega, by omega⟩

theorem c7_metric_identities_witness :
    validTable [initProc 1 0 2] ∧
      all_done (sjfRun 5 (sjfInit [initProc 1 0 2])).procs = true ∧
      (∀ p ∈ (sjfRun 5 (sjfInit [initProc 1 0 2])).procs,
        turnaroundOf p = waitingOf p + p.burst ∧
          turnaroundOf p = p.completion - p.arrival ∧
          p.burst ≤ turnaroundOf p ∧ 0 ≤ waitingOf p) ∧
      validTableR [initRProc 1 0 2] ∧ (0 : Int) < 1 ∧
      all_doneR (rrRun 1 5 (rrInit [initRProc 1 0 2])).procs = true ∧
      ∀ p ∈ (rrRun 1 5 (rrInit [initRProc 1 0 2])).procs,
        turnaroundOfR p = waitingOfR p + p.burst ∧
          turnaroundOfR p = p.completion - p.arrival ∧
          p.burst ≤ turnaroundOfR p ∧ 0 ≤ waitingOfR p :=
  ⟨by decide, by decide,
    c7_metric_identities.1 [initProc 1 0 2] 5 (by decide) (by decide),
    by decide, by decide, by decide,
    c7_metric_identities.2 [initRProc 1 0 2] 1 5 (by decide) (by decide)
      (by decide)⟩

/-- C10: in every state the Round-Robin simulator reaches from a valid
table, the ready queue holds no duplicate index, every queued index
refers to an enqueued process with `remaining > 0`, the `enqueued` flag
holds exactly for arrived processes, and in particular the index at the
front of the queue (the one `q_pop` would return) never refers to a
finished process — the guard at rr.c line 197 is never taken. -/
theorem c10_queue_invariants :
    ∀ (ps : List RProcess) (quantum : Int) (f : Nat), validTableR ps →
      0 < quantum →
      (rrRun quantum f (rrInit ps)).q.Nodup ∧
        (∀ i ∈ (rrRun quantum f (rrInit ps)).q,
          0 < remAt (rrRun quantum f (rrInit ps)).procs i ∧
            enqAt (rrRun quantum f (rrInit ps)).procs i = true) ∧
        (∀ p ∈ (rrRun quantum f (rrInit ps)).procs,
          p.enqueued = true ↔ p.arrival ≤ (rrRun quantum f (rrInit ps)).t) ∧
        ∀ (i : Nat) (r : List Nat), (rrRun quantum f (rrInit ps)).q = i :: r →
          ¬ remAt (rrRun quantum f (rrInit ps)).procs i ≤ 0 := by
  intro ps quantum f hv hq
  have hInv := rrInv_run quantum hq f (rrInit ps) (rrInv_init hv)
  unfold rrInv at hInv
  refine ⟨hInv.2.1, hInv.2.2.2.1, hInv.2.2.2.2.1, ?_⟩
  intro i r hqr
  have hi : i ∈ (rrRun quantum f (rrInit ps)).q := by
    rw [hqr]
    exact List.mem_cons_self i r
  have := (hInv.2.2.2.1 i hi).1
  omega

theorem c10_queue_invariants_witness :
    validTableR [initRProc 1 0 4, initRProc 2 1 3] ∧ (0 : Int) < 2 ∧
      ((rrRun 2 3 (rrInit [initRProc 1 0 4, initRProc 2 1 3])).q.Nodup ∧
        (∀ i ∈ (rrRun 2 3 (rrInit [initRProc 1 0 4, initRProc 2 1 3])).q,
          0 < remAt (rrRun 2 3 (rrInit [initRProc 1 0 4, initRProc 2 1 3])).procs i ∧
            enqAt (rrRun 2 3 (rrInit [initRProc 1 0 4, initRProc 2 1 3])).procs i
              = true) ∧
        (∀ p ∈ (rrRun 2 3 (rrInit [initRProc 1 0 4, initRProc 2 1 3])).procs,
          p.enqueued = true ↔
            p.arrival ≤ (rrRun 2 3 (rrInit [initRProc 1 0 4, initRProc 2 1 3])).t) ∧
        ∀ (i : Nat) (r : List Nat),
          (rrRun 2 3 (rrInit [initRProc 1 0 4, initRProc 2 1 3])).q = i :: r →
          ¬ remAt (rrRun 2 3 (rrInit [initRProc 1 0 4, initRProc 2 1 3])).procs i
              ≤ 0) :=
  ⟨by decide, by decide,
    c10_queue_invariants [initRProc 1 0 4, initRProc 2 1 3] 2 3 (by decide)
      (by decide)⟩

/-- C9 (amended): the Round-Robin loop terminates on every valid input;
the SRTF loop terminates on every valid input whose arrivals and bursts
are below the `INT_MAX` sentinel.  (Unconditionally the SRTF half is
false: with `burst = INT_MAX` the loop exits with the process unfinished
— see the counterexample.) -/
theorem c9_loop_termination :
    (∀ (ps : List RProcess) (quantum : Int), validTableR ps → 0 < quantum →
        ∃ f, all_doneR (rrRun quantum f (rrInit ps)).procs = true) ∧
      ∀ ps : List Process, validTable ps → boundedTable ps →
        ∃ f, all_done (sjfRun f (sjfInit ps)).procs = true := by
  constructor
  · intro ps quantum hv hq
    exact rr_terminates hq hv
  · intro ps hv hb
    exact sjf_terminates hv hb

theorem c9_loop_termination_witness :
    validTableR [initRProc 1 0 4, initRProc 2 3 2] ∧ (0 : Int) < 2 ∧
      (∃ f, all_doneR
          (rrRun 2 f (rrInit [initRProc 1 0 4, initRProc 2 3 2])).procs = true) ∧
      validTable [initProc 1 0 4, initProc 2 3 2] ∧
      boundedTable [initProc 1 0 4, initProc 2 3 2] ∧
      ∃ f, all_done (sjfRun f (sjfInit [initProc 1 0 4, initProc 2 3 2])).procs
          = true :=
  ⟨by decide, by decide,
    c9_loop_termination.1 [initRProc 1 0 4, initRProc 2 3 2] 2 (by decide)
      (by decide),
    by decide, by decide,
    c9_loop_termination.2 [initProc 1 0 4, initProc 2 3 2] (by decide)
      (by decide)⟩

theorem readProcs_complete :
    ∀ (ts : List (Int × Int × Int)) (rest : List Int), goodTriples ts →
      readProcs ts.length (flatTriples ts ++ rest) =
        .ok (ts.map fun u => initProc u.1 u.2.1 u.2.2, rest) := by
  intro ts
  induction ts with
  | nil => intro rest _; rfl
  | cons u r ih =>
    intro rest hg
    obtain ⟨u1, u2, u3⟩ := u
    have hu := hg (u1, u2, u3) (List.mem_cons_self _ _)
    have hr : goodTriples r := fun v hv => hg v (List.mem_cons_of_mem _ hv)
    show readProcs (r.length + 1) (u1 :: u2 :: u3 :: (flatTriples r ++ rest)) = _
    unfold readProcs
    rw [if_neg (by dsimp only at hu; omega)]
    rw [ih rest hr]
    rfl

theorem readProcs_sound :
    ∀ (k : Nat) (input : List Int) (ps : List Process) (rest : List Int),
      readProcs k input = .ok (ps, rest) →
      ∃ ts : List (Int × Int × Int),
        input = flatTriples ts ++ rest ∧ ts.length = k ∧ goodTriples ts ∧
          ps = ts.map fun u => initProc u.1 u.2.1 u.2.2 := by
  intro k
  induction k with
  | zero =>
    intro input ps rest h
    unfold readProcs at h
    rw [Except.ok.injEq, Prod.mk.injEq] at h
    obtain ⟨h1, h2⟩ := h
    exact ⟨[], by rw [h2]; rfl, rfl, fun v hv => absurd hv (List.not_mem_nil v),
      h1.symm⟩
  | succ k ih =>
    intro input ps rest h
    match input with
    | [] => exact Except.noConfusion h
    | [a] => exact Except.noConfusion h
    | [a, b] => exact Except.noConfusion h
    | a :: b :: c :: r =>
      unfold readProcs at h
      by_cases hc : b < 0 ∨ c ≤ 0
      · rw [if_pos hc] at h
        exact Except.noConfusion h
      · rw [if_neg hc] at h
        rcases hrec : readProcs k r with e | ⟨ps', r'⟩
        · rw [hrec] at h
          exact Except.noConfusion h
        · rw [hrec] at h
          dsimp only at h
          rw [Except.ok.injEq, Prod.mk.injEq] at h
          obtain ⟨h1, h2⟩ := h
          obtain ⟨ts, g1, g2, g3, g4⟩ := ih r ps' r' hrec
          refine ⟨(a, b, c) :: ts, ?_, by simp [g2], ?_, ?_⟩
          · show a :: b :: c :: r = a :: b :: c :: (flatTriples ts ++ rest)
            rw [g1, h2]
          · intro v hv
            rcases List.mem_cons.mp hv with rfl | hv'
            · dsimp only; omega
            · exact g3 v hv'
          · rw [← h1, g4]
            rfl

theorem readRProcs_complete :
    ∀ (ts : List (Int × Int × Int)) (rest : List Int), goodTriples ts →
      readRProcs ts.length (flatTriples ts ++ rest) =
        .ok (ts.map fun u => initRProc u.1 u.2.1 u.2.2, rest) := by
  intro ts
  induction ts with
  | nil => intro rest _; rfl
  | cons u r ih =>
    intro rest hg
    obtain ⟨u1, u2, u3⟩ := u
    have hu := hg (u1, u2, u3) (List.mem_cons_self _ _)
    have hr : goodTriples r := fun v hv => hg v (List.mem_cons_of_mem _ hv)
    show readRProcs (r.length + 1) (u1 :: u2 :: u3 :: (flatTriples r ++ rest)) = _
    unfold readRProcs
    rw [if_neg (by dsimp only at hu; omega)]
    rw [ih rest hr]
    rfl

theorem readRProcs_sound :
    ∀ (k : Nat) (input : List Int) (ps : List RProcess) (rest : List Int),
      readRProcs k input = .ok (ps, rest) →
      ∃ ts : List (Int × Int × Int),
        input = flatTriples ts ++ rest ∧ ts.length = k ∧ goodTriples ts ∧
          ps = ts.map fun u => initRProc u.1 u.2.1 u.2.2 := by
  intro k
  induction k with
  | zero =>
    intro input ps rest h
    unfold readRProcs at h
    rw [Except.ok.injEq, Prod.mk.injEq] at h
    obtain ⟨h1, h2⟩ := h
    exact ⟨[], by rw [h2]; rfl, rfl, fun v hv => absurd hv (List.not_mem_nil v),
      h1.symm⟩
  | succ k ih =>
    intro input ps rest h
    match input with
    | [] => exact Except.noConfusion h
    | [a] => exact Except.noConfusion h
    | [a, b] => exact Except.noConfusion h
    | a :: b :: c :: r =>
      unfold readRProcs at h
      by_cases hc : b < 0 ∨ c ≤ 0
      · rw [if_pos hc] at h
        exact Except.noConfusion h
      · rw [if_neg hc] at h
        rcases hrec : readRProcs k r with e | ⟨ps', r'⟩
        · rw [hrec] at h
          exact Except.noConfusion h
        · rw [hrec] at h
          dsimp only at h
          rw [Except.ok.injEq, Prod.mk.injEq] at h
          obtain ⟨h1, h2⟩ := h
          obtain ⟨ts, g1, g2, g3, g4⟩ := ih r ps' r' hrec
          refine ⟨(a, b, c) :: ts, ?_, by simp [g2], ?_, ?_⟩
          · show a :: b :: c :: r = a :: b :: c :: (flatTriples ts ++ rest)
            rw [g1, h2]
          · intro v hv
            rcases List.mem_cons.mp hv with rfl | hv'
            · dsimp only; omega
            · exact g3 v hv'
          · rw [← h1, g4]
            rfl

theorem sjfMain_ok_iff (fuel : Nat) (input : List Int) :
    (∃ s, sjfMain fuel input = .ok s) ↔ sjfValidInput input := by
  constructor
  · rintro ⟨s, hs⟩
    match input with
    | [] => exact Except.noConfusion hs
    | n :: rest =>
      unfold sjfMain at hs
      dsimp only at hs
      by_cases hn : n ≤ 0
      · rw [if_pos hn] at hs
        exact Except.noConfusion hs
      · rw [if_neg hn] at hs
        rcases hrp : readProcs n.toNat rest with e | ⟨ps, r⟩
        · rw [hrp] at hs
          exact Except.noConfusion hs
        · obtain ⟨ts, g1, g2, g3, -⟩ := readProcs_sound n.toNat rest ps r hrp
          exact ⟨n, ts, r, by rw [g1], by omega, g2, g3⟩
  · rintro ⟨n, ts, rest, rfl, hn, hlen, hg⟩
    refine ⟨sjfRun fuel
      (sjfInit (ts.map fun u => initProc u.1 u.2.1 u.2.2)), ?_⟩
    unfold sjfMain
    dsimp only
    rw [if_neg (show ¬ n ≤ 0 by omega)]
    have hc := readProcs_complete ts rest hg
    rw [hlen] at hc
    rw [hc]

theorem rrMain_ok_iff (fuel : Nat) (input : List Int) :
    (∃ s, rrMain fuel input = .ok s) ↔ rrValidInput input := by
  constructor
  · rintro ⟨s, hs⟩
    match input with
    | [] => exact Except.noConfusion hs
    | [n] =>
      unfold rrMain at hs
      dsimp only at hs
      by_cases hn : n ≤ 0
      · rw [if_pos hn] at hs
        exact Except.noConfusion hs
      · rw [if_neg hn] at hs
        exact Except.noConfusion hs
    | n :: qu :: rest =>
      unfold rrMain at hs
      dsimp only at hs
      by_cases hn : n ≤ 0
      · rw [if_pos hn] at hs
        exact Except.noConfusion hs
      · rw [if_neg hn] at hs
        by_cases hqu : qu ≤ 0
        · rw [if_pos hqu] at hs
          exact Except.noConfusion hs
        · rw [if_neg hqu] at hs
          rcases hrp : readRProcs n.toNat rest with e | ⟨ps, r⟩
          · rw [hrp] at hs
            exact Except.noConfusion hs
          · obtain ⟨ts, g1, g2, g3, -⟩ := readRProcs_sound n.toNat rest ps r hrp
            exact ⟨n, qu, ts, r, by rw [g1], by omega, by omega, g2, g3⟩
  · rintro ⟨n, qu, ts, rest, rfl, hn, hqu, hlen, hg⟩
    refine ⟨rrRun qu fuel
      (rrInit (ts.map fun u => initRProc u.1 u.2.1 u.2.2)), ?_⟩
    unfold rrMain
    dsimp only
    rw [if_neg (show ¬ n ≤ 0 by omega)]
    rw [if_neg (show ¬ qu ≤ 0 by omega)]
    have hc := readRProcs_complete ts rest hg
    rw [hlen] at hc
    rw [hc]

/-- C8, counterexample: on the valid input `n = 1`,
`P1(arrival 0, burst 2147483647)` the sjf.c program exits with status 0
even though the simulation did not complete: the `next_arr == INT_MAX`
safety break (sjf.c line 132) leaves the loop with the process
unfinished, yet `main` still reaches `return 0`. -/
theorem c8_counterexample :
    sjfValidInput [1, 1, 0, 2147483647] ∧
      sjfMain 10 [1, 1, 0, 2147483647] =
        .ok (sjfInit [initProc 1 0 2147483647]) ∧
      all_done (sjfInit [initProc 1 0 2147483647]).procs = false :=
  ⟨⟨1, [(1, 0, 2147483647)], [], rfl, by decide, by decide, by decide⟩,
    by rfl, by decide⟩

/-- C8 (amended): both programs exit with a non-zero status, building no
simulation state, exactly when the input token stream is invalid
(non-positive or missing `n`, for rr.c non-positive or missing quantum,
malformed process line, `arrival < 0` or `burst ≤ 0`).  On valid input
the exit status is 0, and the run behind it is a completed simulation
for rr.c always, and for sjf.c whenever arrivals and bursts are below
the `INT_MAX` sentinel (without that bound exit status 0 does not imply
a completed simulation — see the counterexample). -/
theorem c8_exit_status :
    (∀ (fuel : Nat) (input : List Int),
        sjfMain fuel input = .error () ↔ ¬ sjfValidInput input) ∧
      (∀ (fuel : Nat) (input : List Int),
        rrMain fuel input = .error () ↔ ¬ rrValidInput input) ∧
      (∀ (n qu : Int) (ts : List (Int × Int × Int)) (rest : List Int),
        0 < n → 0 < qu → ts.length = n.toNat → goodTriples ts →
        ∃ (fuel : Nat) (s : RrState),
          rrMain fuel (n :: qu :: (flatTriples ts ++ rest)) = .ok s ∧
            all_doneR s.procs = true) ∧
      ∀ (n : Int) (ts : List (Int × Int × Int)) (rest : List Int),
        0 < n → ts.length = n.toNat → goodTriples ts →
        (∀ u ∈ ts, u.2.1 < INT_MAX ∧ u.2.2 < INT_MAX) →
        ∃ (fuel : Nat) (s : SjfState),
          sjfMain fuel (n :: (flatTriples ts ++ rest)) = .ok s ∧
            all_done s.procs = true := by
  refine ⟨?_, ?_, ?_, ?_⟩
  · intro fuel input
    constructor
    · intro he hv
      obtain ⟨s, hs⟩ := (sjfMain_ok_iff fuel input).mpr hv
      rw [he] at hs
      exact Except.noConfusion hs
    · intro hv
      rcases h : sjfMain fuel input with u | s
      · cases u
        rfl
      · exact absurd ((sjfMain_ok_iff fuel input).mp ⟨s, h⟩) hv
  · intro fuel input
    constructor
    · intro he hv
      obtain ⟨s, hs⟩ := (rrMain_ok_iff fuel input).mpr hv
      rw [he] at hs
      exact Except.noConfusion hs
    · intro hv
      rcases h : rrMain fuel input with u | s
      · cases u
        rfl
      · exact absurd ((rrMain_ok_iff fuel input).mp ⟨s, h⟩) hv
  · intro n qu ts rest hn hqu hlen hg
    have hne : ts ≠ [] := by
      intro he
      rw [he] at hlen
      simp at hlen
      omega
    have hv : validTableR (ts.map fun u => initRProc u.1 u.2.1 u.2.2) := by
      constructor
      · simp [hne]
      · intro p hp
        obtain ⟨u, hu, rfl⟩ := List.mem_map.mp hp
        have := hg u hu
        exact ⟨this.1, this.2, rfl, rfl, rfl⟩
    obtain ⟨f, hf⟩ := rr_terminates hqu hv
    refine ⟨f, rrRun qu f
      (rrInit (ts.map fun u => initRProc u.1 u.2.1 u.2.2)), ?_, hf⟩
    unfold rrMain
    dsimp only
    rw [if_neg (show ¬ n ≤ 0 by omega)]
    rw [if_neg (show ¬ qu ≤ 0 by omega)]
    have hc := readRProcs_complete ts rest hg
    rw [hlen] at hc
    rw [hc]
  · intro n ts rest hn hlen hg hbnd
    have hne : ts ≠ [] := by
      intro he
      rw [he] at hlen
      simp at hlen
      omega
    have hv : validTable (ts.map fun u => initProc u.1 u.2.1 u.2.2) := by
      constructor
      · simp [hne]
      · intro p hp
        obtain ⟨u, hu, rfl⟩ := List.mem_map.mp hp
        have := hg u hu
        exact ⟨this.1, this.2, rfl, rfl⟩
    have hb : boundedTable (ts.map fun u => initProc u.1 u.2.1 u.2.2) := by
      intro p hp
      obtain ⟨u, hu, rfl⟩ := List.mem_map.mp hp
      exact hbnd u hu
    obtain ⟨f, hf⟩ := sjf_terminates hv hb
    refine ⟨f, sjfRun f
      (sjfInit (ts.map fun u => initProc u.1 u.2.1 u.2.2)), ?_, hf⟩
    unfold sjfMain
    dsimp only
    rw [if_neg (show ¬ n ≤ 0 by omega)]
    have hc := readProcs_complete ts rest hg
    rw [hlen] at hc
    rw [hc]

theorem c8_exit_status_witness :
    goodTriples [((1 : Int), (0 : Int), (2 : Int))] ∧
      (∃ (fuel : Nat) (s : RrState),
        rrMain fuel [1, 1, 1, 0, 2] = .ok s ∧ all_doneR s.procs = true) ∧
      ∃ (fuel : Nat) (s : SjfState),
        sjfMain fuel [1, 1, 0, 2] = .ok s ∧ all_done s.procs = true :=
  ⟨by decide,
    c8_exit_status.2.2.1 1 1 [(1, 0, 2)] [] (by decide) (by decide) (by decide)
      (by decide),
    c8_exit_status.2.2.2 1 [(1, 0, 2)] [] (by decide) (by decide) (by decide)
      (by decide)⟩

end CpuSched
